import Mathlib

/-!
# Verification of the speaker-label normalizer in OPENAI_STT

Shallow embedding of `format_speaker_labels` from `app.py` (class
`AudioProcessor`) and from `main.py`, together with the error-propagation
structure of the surrounding pipeline in `app.py`.

The Python source of the `app.py` normalizer is

```
text = re.sub(r'\n{3,}', '\n\n', text.strip())
text = re.sub(r'\[?(?i)speaker\s*(\d+)\]?\s*:', r'Suxbatdosh \1:', text)
text = re.sub(r'(?<!^)(?=Suxbatdosh \d+:)', r'\n\n', text)
```

and the `main.py` variant omits the first line and uses `Speaker` as the
canonical word.  Strings are modelled as `List Char`; each `re.sub` call is
embedded as a direct recursive function implementing the leftmost,
non-overlapping, greedy semantics of its fixed pattern.  The inline `(?i)`
flag applies to the whole pattern (global case-insensitive matching, the
behaviour of the Python versions this script targets), and `^` without
`re.MULTILINE` anchors only at position 0, so the lookbehind `(?<!^)`
excludes exactly the start of the string.
-/

/-- The six ASCII whitespace characters recognised by Python's `str.strip`
and by `\s` (restricted to ASCII, which is all the program's data uses). -/
def isSpaceC (c : Char) : Bool :=
  c = ' ' || c = '\t' || c = '\n' || c = '\r' || c = '\x0b' || c = '\x0c'

/-- ASCII decimal digit, the `\d` class on the program's data. -/
def isDigitC (c : Char) : Bool :=
  c.isDigit

/-- Case-insensitive removal of the literal word `w` (given in lowercase)
from the front of `l`; returns the remainder on success.  Embeds the
case-insensitive literal part of `(?i)speaker`. -/
def dropWordCI : List Char → List Char → Option (List Char)
  | [], l => some l
  | _ :: _, [] => none
  | w :: ws, c :: cs => if c.toLower = w then dropWordCI ws cs else none

/-- Case-sensitive removal of the literal word `w` from the front of `l`.
Embeds the literal part of the lookahead `Suxbatdosh \d+:`. -/
def dropWordE : List Char → List Char → Option (List Char)
  | [], l => some l
  | _ :: _, [] => none
  | w :: ws, c :: cs => if c = w then dropWordE ws cs else none

def speakerWord : List Char := ['s', 'p', 'e', 'a', 'k', 'e', 'r']

/-- The optional closing bracket `\]?`: consume a leading `]` if present. -/
def dropBracket : List Char → List Char
  | ']' :: t => t
  | l => l

/-- The final literal `:` of both patterns: require and consume a colon. -/
def dropColon : List Char → Option (List Char)
  | ':' :: t => some t
  | _ => none

/-- Attempt to match `speaker\s*(\d+)\]?\s*:` (case-insensitive) at the head
of `l`.  On success returns the captured digit group and the remainder of
the string after the match.  Greedy `\s*`/`\d+` runs are maximal; since the
character after each run is from a disjoint class, the regex engine's
backtracking can never produce any other outcome. -/
def matchBody (l : List Char) : Option (List Char × List Char) :=
  match dropWordCI speakerWord l with
  | none => none
  | some l1 =>
    let l2 := l1.dropWhile isSpaceC
    let ds := l2.takeWhile isDigitC
    if ds.isEmpty then none
    else
      match dropColon ((dropBracket (l2.dropWhile isDigitC)).dropWhile isSpaceC) with
      | none => none
      | some t => some (ds, t)

/-- Attempt to match the full pattern `\[?(?i)speaker\s*(\d+)\]?\s*:` at the
head of `l`.  When `l` starts with `[` the bracket-free alternative would
have to match `speaker` against `[` and always fails, so only the
bracket-consuming branch remains. -/
def tryMatch (l : List Char) : Option (List Char × List Char) :=
  match l with
  | '[' :: t => matchBody t
  | _ => matchBody l

/-- The replacement text `<canon> \1:` (e.g. `Suxbatdosh \1:`) with the
captured digit group `ds` substituted. -/
def canonRep (w ds : List Char) : List Char :=
  w ++ ' ' :: (ds ++ [':'])

/-- Fuelled worker for `re.sub` on the speaker pattern: scan left to right,
replace each match and continue after it, otherwise emit one character and
advance.  `fuel ≥ l.length` makes the first branch unreachable. -/
def subGo (w : List Char) : Nat → List Char → List Char
  | 0, l => l
  | _ + 1, [] => []
  | fuel + 1, c :: rest =>
    match tryMatch (c :: rest) with
    | some (ds, t) => canonRep w ds ++ subGo w fuel t
    | none => c :: subGo w fuel rest

/-- `re.sub(r'\[?(?i)speaker\s*(\d+)\]?\s*:', r'<w> \1:', l)`. -/
def subSpeaker (w : List Char) (l : List Char) : List Char :=
  subGo w l.length l

/-- Does the lookahead `<w> \d+:` (literal canonical word, one space, one or
more digits, a colon) hold at the head of `l`? -/
def markerAt (w : List Char) (l : List Char) : Bool :=
  match dropWordE (w ++ [' ']) l with
  | none => false
  | some l1 =>
    !(l1.takeWhile isDigitC).isEmpty && (dropColon (l1.dropWhile isDigitC)).isSome

/-- Worker for the zero-width substitution: checks the lookahead at every
position of its argument and inserts `\n\n` where it holds. -/
def ibAux (w : List Char) : List Char → List Char
  | [] => []
  | c :: rest =>
    if markerAt w (c :: rest) then '\n' :: '\n' :: c :: ibAux w rest
    else c :: ibAux w rest

/-- `re.sub(r'(?<!^)(?=<w> \d+:)', '\n\n', l)`: insert `\n\n` before every
position, other than position 0, at which the lookahead holds. -/
def insertBreaks (w : List Char) : List Char → List Char
  | [] => []
  | c :: rest => c :: ibAux w rest

/-- Flush a pending run of `k` newline characters: runs of three or more
collapse to exactly two. -/
def collapseEmit (k : Nat) : List Char :=
  if 3 ≤ k then ['\n', '\n'] else List.replicate k '\n'

/-- Worker for `re.sub(r'\n{3,}', '\n\n', l)`: `k` counts the newline run
currently being read. -/
def collapseGo : Nat → List Char → List Char
  | k, [] => collapseEmit k
  | k, c :: rest =>
    if c = '\n' then collapseGo (k + 1) rest
    else collapseEmit k ++ c :: collapseGo 0 rest

/-- `re.sub(r'\n{3,}', '\n\n', l)`. -/
def collapseNewlines (l : List Char) : List Char :=
  collapseGo 0 l

/-- Python `str.strip()` on the program's ASCII data. -/
def stripWS (l : List Char) : List Char :=
  ((l.dropWhile isSpaceC).reverse.dropWhile isSpaceC).reverse

/-- Canonical word of the `app.py` normalizer. -/
def suxWord : List Char := ['S', 'u', 'x', 'b', 'a', 't', 'd', 'o', 's', 'h']

/-- Canonical word of the `main.py` normalizer. -/
def spkWord : List Char := ['S', 'p', 'e', 'a', 'k', 'e', 'r']

/-- `AudioProcessor.format_speaker_labels` from `app.py`: strip, collapse
blank runs, canonicalize speaker markers to `Suxbatdosh N:`, insert a
paragraph break before every canonical marker not at position 0. -/
def appFormat (l : List Char) : List Char :=
  insertBreaks suxWord (subSpeaker suxWord (collapseNewlines (stripWS l)))

/-- `format_speaker_labels` from `main.py`: canonicalize speaker markers to
`Speaker N:` and insert a paragraph break before every canonical marker not
at position 0 (no stripping, no blank-run collapsing). -/
def mainFormat (l : List Char) : List Char :=
  insertBreaks spkWord (subSpeaker spkWord l)

/-- String-level wrapper of the `app.py` normalizer. -/
def format_speaker_labels (s : String) : String :=
  ⟨appFormat s.data⟩

/-- String-level wrapper of the `main.py` normalizer. -/
def format_speaker_labels_main (s : String) : String :=
  ⟨mainFormat s.data⟩

/-- Does some position of `l` match the speaker pattern? -/
def hasSpeakerMatch : List Char → Bool
  | [] => false
  | c :: rest => (tryMatch (c :: rest)).isSome || hasSpeakerMatch rest

/-- Does some position of `l` start a canonical marker `<w> \d+:`? -/
def hasMarker (w : List Char) : List Char → Bool
  | [] => false
  | c :: rest => markerAt w (c :: rest) || hasMarker w rest

/-- No three consecutive newline characters occur in `l`. -/
def noTripleNL : List Char → Bool
  | [] => true
  | [_] => true
  | [_, _] => true
  | a :: b :: c :: rest =>
    !(a = '\n' && b = '\n' && c = '\n') && noTripleNL (b :: c :: rest)

/-- The first character of `l`, if any, is not whitespace. -/
def headOK (l : List Char) : Bool :=
  match l.head? with
  | some c => !isSpaceC c
  | none => true

/-- The last character of `l`, if any, is not whitespace. -/
def lastOK (l : List Char) : Bool :=
  match l.getLast? with
  | some c => !isSpaceC c
  | none => true

/-- A canonical word is well formed for the analysis below: nonempty, free
of newlines, and not starting with a digit.  Both `Suxbatdosh` and
`Speaker` qualify. -/
def goodWord : List Char → Bool
  | [] => false
  | c :: rest => !(c = '\n') && !isDigitC c && (c :: rest).all (fun a => !(a = '\n'))

/-- The statement of the spec's paragraph property at one input: in the
output, every canonical marker away from position 0 is immediately preceded
by exactly two consecutive newline characters, never more, never fewer. -/
def claimC2Holds (l : List Char) : Prop :=
  ∀ i, i < (appFormat l).length → markerAt suxWord ((appFormat l).drop i) = true →
    i ≠ 0 →
      2 ≤ i ∧ ((appFormat l).drop (i - 2)).take 2 = ['\n', '\n'] ∧
        (i = 2 ∨ ¬ ((appFormat l).drop (i - 3)).take 1 = ['\n'])

/-- Modelled from the spec: the spec's flat error taxonomy (section 7) names
`FormattingError`, `TranscriptionError` and `CompletionError` as wrappers
that carry the original exception context.  The source defines no such
exception classes; every stage catches `Exception`, logs, and re-raises the
original exception with a bare `raise`.  `pyExc` stands for an arbitrary
exception raised by a library call; the three wrapper constructors exist in
the model so the spec's claims about them can be stated against the code's
actual behaviour. -/
inductive AppError where
  | pyExc : String → AppError
  | formattingError : AppError → AppError
  | transcriptionError : AppError → AppError
  | completionError : AppError → AppError
deriving DecidableEq

/-- The `except Exception as e: logger.error(...); raise` pattern wrapped
around every stage in `app.py`: logging does not change the value, and a
bare `raise` re-raises the very same exception object. -/
def logAndReraise {α : Type} (r : Except AppError α) : Except AppError α :=
  match r with
  | .error e => .error e
  | .ok v => .ok v

/-- The `try` block of `AudioProcessor.format_speaker_labels`, with the
three substitution passes abstracted as fallible steps so that a failure of
the pattern-matching engine can be modelled. -/
def formatLabelsTry (step1 step2 step3 : List Char → Except AppError (List Char))
    (t : List Char) : Except AppError (List Char) :=
  logAndReraise (do
    let t1 ← step1 t
    let t2 ← step2 t1
    let t3 ← step3 t2
    pure t3)

/-- A total substitution pass, as the actual `re.sub` calls are in the
embedding. -/
def okStep (f : List Char → List Char) : List Char → Except AppError (List Char) :=
  fun l => .ok (f l)

/-- `AudioProcessor.transcribe_audio`: a remote call wrapped in
catch-log-reraise. -/
def transcribe_audio {α : Type} (call : α → Except AppError (List Char))
    (a : α) : Except AppError (List Char) :=
  logAndReraise (call a)

/-- The values produced by the processing block of `main()` in `app.py`. -/
structure PipelineOutput where
  formatted : List Char
  uzbek : List Char
  summary : List Char
deriving DecidableEq

/-- The processing sequence of `main()` in `app.py`: transcription, speaker
identification, label normalization, conversion to Uzbek, summarization.
The remote stages are abstract fallible calls, each wrapped in the source's
catch-log-reraise pattern; the label normalization is the local pure pass. -/
def runPipeline {α : Type} (transcribe : α → Except AppError (List Char))
    (identify convertToUzbek summarize : List Char → Except AppError (List Char))
    (audio : α) : Except AppError PipelineOutput := do
  let tr ← transcribe_audio transcribe audio
  let di ← logAndReraise (identify tr)
  let fo := appFormat di
  let uz ← logAndReraise (convertToUzbek fo)
  let su ← logAndReraise (summarize uz)
  pure ⟨fo, uz, su⟩

/-! ### Identity lemmas: each substitution is a no-op on inputs with no match -/

theorem subGo_of_no_match (w : List Char) :
    ∀ (fuel : Nat) (l : List Char), hasSpeakerMatch l = false → subGo w fuel l = l
  | 0, _, _ => rfl
  | _ + 1, [], _ => rfl
  | fuel + 1, c :: rest, h => by
    unfold hasSpeakerMatch at h
    rw [Bool.or_eq_false_iff] at h
    cases htm : tryMatch (c :: rest) with
    | some p => rw [htm] at h; simp at h
    | none =>
      simp only [subGo, htm]
      rw [subGo_of_no_match w fuel rest h.2]

theorem subSpeaker_of_no_match (w l : List Char) (h : hasSpeakerMatch l = false) :
    subSpeaker w l = l :=
  subGo_of_no_match w l.length l h

theorem ibAux_of_no_marker (w : List Char) :
    ∀ l : List Char, hasMarker w l = false → ibAux w l = l
  | [], _ => rfl
  | c :: rest, h => by
    unfold hasMarker at h
    rw [Bool.or_eq_false_iff] at h
    simp only [ibAux, h.1]
    rw [ibAux_of_no_marker w rest h.2]
    simp

theorem insertBreaks_of_no_marker (w : List Char) (l : List Char)
    (h : hasMarker w l = false) : insertBreaks w l = l := by
  match l with
  | [] => rfl
  | c :: rest =>
    unfold hasMarker at h
    rw [Bool.or_eq_false_iff] at h
    show c :: ibAux w rest = c :: rest
    rw [ibAux_of_no_marker w rest h.2]

theorem noTripleNL_cons : ∀ (c : Char) (l : List Char),
    noTripleNL (c :: l) = true → noTripleNL l = true
  | _, [], _ => rfl
  | _, [_], _ => rfl
  | a, b :: c :: rest, h => by
    unfold noTripleNL at h
    rw [Bool.and_eq_true] at h
    exact h.2

theorem noTripleNL_append_right :
    ∀ (a b : List Char), noTripleNL (a ++ b) = true → noTripleNL b = true
  | [], _, h => h
  | x :: a, b, h =>
    noTripleNL_append_right a b (noTripleNL_cons x (a ++ b) (by simpa using h))

theorem noTripleNL_replicate_le (k : Nat) (l : List Char)
    (h : noTripleNL (List.replicate k '\n' ++ l) = true) : k ≤ 2 := by
  by_contra hk
  push_neg at hk
  obtain ⟨m, rfl⟩ : ∃ m, k = m + 3 := ⟨k - 3, by omega⟩
  rw [show m + 3 = 3 + m by omega, List.replicate_add] at h
  simp [List.replicate, noTripleNL] at h

theorem collapseGo_of_noTriple :
    ∀ (l : List Char) (k : Nat), noTripleNL (List.replicate k '\n' ++ l) = true →
      collapseGo k l = List.replicate k '\n' ++ l
  | [], k, h => by
    have hk : k ≤ 2 := noTripleNL_replicate_le k [] h
    unfold collapseGo collapseEmit
    rw [if_neg (by omega), List.append_nil]
  | c :: rest, k, h => by
    unfold collapseGo
    by_cases hc : c = '\n'
    · subst hc
      rw [if_pos rfl, collapseGo_of_noTriple rest (k + 1)
        (by rw [List.replicate_add]; simpa using h)]
      rw [List.replicate_add]
      simp [List.replicate]
    · have hk : k ≤ 2 := noTripleNL_replicate_le k (c :: rest) h
      have hrest : noTripleNL rest = true :=
        noTripleNL_cons c rest (noTripleNL_append_right (List.replicate k '\n') _ h)
      rw [if_neg hc, collapseGo_of_noTriple rest 0 (by simpa using hrest)]
      unfold collapseEmit
      rw [if_neg (by omega)]
      simp

theorem collapseNewlines_of_noTriple (l : List Char) (h : noTripleNL l = true) :
    collapseNewlines l = l := by
  unfold collapseNewlines
  rw [collapseGo_of_noTriple l 0 (by simpa using h)]
  simp

/-! ### Behaviour of the blank-run collapsing pass on newline runs -/

theorem collapseGo_nil (k : Nat) : collapseGo k [] = collapseEmit k := rfl

theorem collapseGo_cons (k : Nat) (c : Char) (rest : List Char) :
    collapseGo k (c :: rest) =
      if c = '\n' then collapseGo (k + 1) rest
      else collapseEmit k ++ c :: collapseGo 0 rest := rfl

theorem collapseEmit_big (k : Nat) (hk : 3 ≤ k) : collapseEmit k = ['\n', '\n'] := by
  unfold collapseEmit
  rw [if_pos hk]

theorem collapseEmit_small (k : Nat) (hk : k < 3) :
    collapseEmit k = List.replicate k '\n' := by
  unfold collapseEmit
  rw [if_neg (by omega)]

theorem collapseGo_replicate :
    ∀ (m : Nat) (j : Nat) (X : List Char),
      collapseGo j (List.replicate m '\n' ++ X) = collapseGo (j + m) X
  | 0, j, X => by simp
  | m + 1, j, X => by
    rw [show m + 1 = 1 + m by omega, List.replicate_add]
    show collapseGo j ('\n' :: (List.replicate m '\n' ++ X)) = _
    rw [collapseGo_cons, if_pos rfl, collapseGo_replicate m (j + 1) X,
      show j + 1 + m = j + (1 + m) by omega]

theorem collapseGo_append :
    ∀ (pre : List Char), pre ≠ [] → pre.getLast? ≠ some '\n' →
      ∀ (j : Nat) (X : List Char),
        collapseGo j (pre ++ X) = collapseGo j pre ++ collapseGo 0 X
  | [], h, _ => absurd rfl h
  | [c], _, hl => by
    intro j X
    have hc : ¬ c = '\n' := by simpa using hl
    show collapseGo j (c :: X) = collapseGo j [c] ++ collapseGo 0 X
    rw [collapseGo_cons, collapseGo_cons, if_neg hc, if_neg hc, collapseGo_nil,
      collapseEmit_small 0 (by omega)]
    simp
  | c :: d :: pre', _, hl => by
    intro j X
    have hl' : (d :: pre').getLast? ≠ some '\n' := by
      rwa [List.getLast?_cons_cons] at hl
    show collapseGo j (c :: ((d :: pre') ++ X)) = collapseGo j (c :: (d :: pre')) ++ _
    rw [collapseGo_cons, collapseGo_cons]
    by_cases hc : c = '\n'
    · rw [if_pos hc, if_pos hc]
      exact collapseGo_append (d :: pre') (by simp) hl' (j + 1) X
    · rw [if_neg hc, if_neg hc,
        collapseGo_append (d :: pre') (by simp) hl' 0 X]
      simp

theorem collapseNewlines_run (pre post : List Char) (k : Nat) (hk : 3 ≤ k)
    (hpre : pre.getLast? ≠ some '\n') (hpost : post.head? ≠ some '\n') :
    collapseNewlines (pre ++ List.replicate k '\n' ++ post) =
      collapseNewlines pre ++ '\n' :: '\n' :: collapseNewlines post := by
  have core : collapseGo 0 (List.replicate k '\n' ++ post) =
      '\n' :: '\n' :: collapseGo 0 post := by
    rw [collapseGo_replicate k 0 post, show 0 + k = k by omega]
    match post, hpost with
    | [], _ =>
      rw [collapseGo_nil, collapseGo_nil, collapseEmit_big k hk,
        collapseEmit_small 0 (by omega)]
      simp
    | c :: post', hpost =>
      have hc : ¬ c = '\n' := by simpa using hpost
      rw [collapseGo_cons, collapseGo_cons, if_neg hc, if_neg hc,
        collapseEmit_big k hk, collapseEmit_small 0 (by omega)]
      simp
  match pre with
  | [] =>
    show collapseGo 0 (List.replicate k '\n' ++ post) =
      collapseGo 0 [] ++ '\n' :: '\n' :: collapseGo 0 post
    rw [core, collapseGo_nil, collapseEmit_small 0 (by omega)]
    simp
  | p :: pre' =>
    unfold collapseNewlines
    rw [List.append_assoc,
      collapseGo_append (p :: pre') (by simp) hpre 0 (List.replicate k '\n' ++ post),
      core]

/-! ### The output of the `app.py` normalizer has no outer whitespace -/

theorem headOK_cons (c : Char) (l : List Char) : headOK (c :: l) = !isSpaceC c := rfl

theorem lastOK_singleton (c : Char) : lastOK [c] = !isSpaceC c := rfl

theorem lastOK_cons_of_ne_nil (c : Char) (l : List Char) (h : l ≠ []) :
    lastOK (c :: l) = lastOK l := by
  match l, h with
  | d :: t, _ =>
    unfold lastOK
    rw [List.getLast?_cons_cons]

theorem lastOK_append_right (a b : List Char) (h : b ≠ []) :
    lastOK (a ++ b) = lastOK b := by
  unfold lastOK
  rw [List.getLast?_append_of_ne_nil a h]

theorem lastOK_eq_headOK_reverse (l : List Char) : lastOK l = headOK l.reverse := by
  unfold lastOK headOK
  rw [List.head?_reverse]

theorem headOK_dropWhile (l : List Char) : headOK (l.dropWhile isSpaceC) = true := by
  induction l with
  | nil => rfl
  | cons c rest ih =>
    rw [List.dropWhile_cons]
    by_cases hc : isSpaceC c = true
    · rw [if_pos hc]; exact ih
    · rw [if_neg hc, headOK_cons]
      simp at hc
      simp [hc]

theorem dropWhile_eq_self_of_headOK (l : List Char) (h : headOK l = true) :
    l.dropWhile isSpaceC = l := by
  match l with
  | [] => rfl
  | c :: rest =>
    rw [headOK_cons] at h
    rw [List.dropWhile_cons, if_neg (by simp_all)]

theorem headOK_of_append (a b : List Char) (h : headOK (a ++ b) = true) :
    headOK a = true := by
  match a with
  | [] => rfl
  | c :: t => rwa [List.cons_append, headOK_cons] at h

theorem stripWS_headOK (l : List Char) : headOK (stripWS l) = true := by
  set Y := l.dropWhile isSpaceC with hY
  have hYok : headOK Y = true := headOK_dropWhile l
  have hdec : Y = (Y.reverse.dropWhile isSpaceC).reverse ++
      (Y.reverse.takeWhile isSpaceC).reverse := by
    conv_lhs => rw [← List.reverse_reverse Y,
      ← List.takeWhile_append_dropWhile isSpaceC Y.reverse]
    rw [List.reverse_append]
  exact headOK_of_append _ _ (hdec ▸ hYok)

theorem stripWS_lastOK (l : List Char) : lastOK (stripWS l) = true := by
  unfold stripWS
  rw [lastOK_eq_headOK_reverse, List.reverse_reverse]
  exact headOK_dropWhile _

theorem stripWS_eq_self (l : List Char) (h1 : headOK l = true) (h2 : lastOK l = true) :
    stripWS l = l := by
  unfold stripWS
  rw [dropWhile_eq_self_of_headOK l h1,
    dropWhile_eq_self_of_headOK l.reverse (by rwa [lastOK_eq_headOK_reverse] at h2),
    List.reverse_reverse]

theorem collapseEmit_ne_nil (k : Nat) (hk : 1 ≤ k) : collapseEmit k ≠ [] := by
  unfold collapseEmit
  by_cases h : 3 ≤ k
  · rw [if_pos h]; simp
  · rw [if_neg h]; simp; omega

theorem collapseGo_ne_nil : ∀ (l : List Char) (k : Nat), l ≠ [] → collapseGo k l ≠ []
  | [], _, h => absurd rfl h
  | c :: rest, k, _ => by
    rw [collapseGo_cons]
    by_cases hc : c = '\n'
    · rw [if_pos hc]
      match rest with
      | [] => exact collapseEmit_ne_nil (k + 1) (by omega)
      | d :: t => exact collapseGo_ne_nil (d :: t) (k + 1) (by simp)
    · rw [if_neg hc]; simp

theorem collapse_headOK (l : List Char) (h : headOK l = true) :
    headOK (collapseNewlines l) = true := by
  match l with
  | [] => rfl
  | c :: rest =>
    rw [headOK_cons] at h
    have hc : ¬ c = '\n' := by
      intro hc
      rw [hc] at h
      simp [isSpaceC] at h
    unfold collapseNewlines
    rw [collapseGo_cons, if_neg hc, collapseEmit_small 0 (by omega)]
    simpa [headOK_cons] using h

theorem collapseGo_lastOK :
    ∀ (l : List Char) (k : Nat), l ≠ [] → lastOK l = true →
      lastOK (collapseGo k l) = true
  | [], _, h, _ => absurd rfl h
  | [c], k, _, hl => by
    rw [lastOK_singleton] at hl
    have hc : ¬ c = '\n' := by
      intro hc; rw [hc] at hl; simp [isSpaceC] at hl
    rw [collapseGo_cons, if_neg hc, collapseGo_nil,
      collapseEmit_small 0 (by omega)]
    simp only [List.replicate_zero]
    rw [show collapseEmit k ++ c :: ([] : List Char) = collapseEmit k ++ [c] by rfl,
      lastOK_append_right _ [c] (by simp), lastOK_singleton]
    exact hl
  | c :: d :: rest, k, _, hl => by
    have hl' : lastOK (d :: rest) = true := by
      rwa [lastOK_cons_of_ne_nil c _ (by simp)] at hl
    rw [collapseGo_cons]
    by_cases hc : c = '\n'
    · rw [if_pos hc]
      exact collapseGo_lastOK (d :: rest) (k + 1) (by simp) hl'
    · rw [if_neg hc]
      have hne : collapseGo 0 (d :: rest) ≠ [] := collapseGo_ne_nil _ 0 (by simp)
      rw [show collapseEmit k ++ c :: collapseGo 0 (d :: rest) =
        collapseEmit k ++ (c :: collapseGo 0 (d :: rest)) by rfl,
        lastOK_append_right _ _ (by simp),
        lastOK_cons_of_ne_nil c _ hne]
      exact collapseGo_lastOK (d :: rest) 0 (by simp) hl'

theorem collapse_lastOK (l : List Char) (h : lastOK l = true) :
    lastOK (collapseNewlines l) = true := by
  match l with
  | [] => rfl
  | c :: rest => exact collapseGo_lastOK (c :: rest) 0 (by simp) h

/-! ### The remainder returned by a successful match is a strict suffix -/

theorem dropWordCI_decomp :
    ∀ (w l r : List Char), dropWordCI w l = some r → ∃ p, l = p ++ r ∧ p.length = w.length
  | [], l, r, h => ⟨[], by simpa using Option.some.inj h, rfl⟩
  | _ :: _, [], _, h => by simp [dropWordCI] at h
  | w :: ws, c :: cs, r, h => by
    unfold dropWordCI at h
    split at h
    · obtain ⟨p, hp, hlen⟩ := dropWordCI_decomp ws cs r h
      exact ⟨c :: p, by simp [hp], by simp [hlen]⟩
    · exact absurd h (by simp)

theorem dropWordE_decomp :
    ∀ (w l r : List Char), dropWordE w l = some r → l = w ++ r
  | [], l, r, h => by simpa using Option.some.inj h
  | _ :: _, [], _, h => by simp [dropWordE] at h
  | w :: ws, c :: cs, r, h => by
    unfold dropWordE at h
    split at h
    · rename_i hc
      rw [List.cons_append, hc, dropWordE_decomp ws cs r h]
    · exact absurd h (by simp)

theorem dropWhile_decomp (p : Char → Bool) (l : List Char) :
    ∃ q, l = q ++ l.dropWhile p :=
  ⟨l.takeWhile p, (List.takeWhile_append_dropWhile p l).symm⟩

theorem dropBracket_decomp (l : List Char) : ∃ q, l = q ++ dropBracket l := by
  unfold dropBracket
  split
  · exact ⟨[']'], rfl⟩
  · exact ⟨[], rfl⟩

theorem dropColon_decomp (l t : List Char) (h : dropColon l = some t) :
    l = ':' :: t := by
  unfold dropColon at h
  split at h
  · rw [Option.some.inj h]
  · exact absurd h (by simp)

theorem matchBody_decomp (l ds t : List Char) (h : matchBody l = some (ds, t)) :
    ∃ p, l = p ++ t ∧ p ≠ [] := by
  unfold matchBody at h
  cases hdw : dropWordCI speakerWord l with
  | none => rw [hdw] at h; exact absurd h (by simp)
  | some l1 =>
    rw [hdw] at h
    simp only at h
    split at h
    · exact absurd h (by simp)
    · rename_i hne
      cases hdc : dropColon ((dropBracket (((l1.dropWhile isSpaceC).dropWhile isDigitC))).dropWhile isSpaceC) with
      | none => rw [hdc] at h; exact absurd h (by simp)
      | some t' =>
        rw [hdc] at h
        obtain ⟨hds, ht⟩ : ds = (l1.dropWhile isSpaceC).takeWhile isDigitC ∧ t = t' := by
          have := Option.some.inj h
          exact ⟨congrArg Prod.fst this.symm, congrArg Prod.snd this.symm⟩
        subst ht
        obtain ⟨p0, hp0, hlen0⟩ := dropWordCI_decomp speakerWord l l1 hdw
        obtain ⟨q1, hq1⟩ := dropWhile_decomp isSpaceC l1
        obtain ⟨q2, hq2⟩ := dropWhile_decomp isDigitC (l1.dropWhile isSpaceC)
        obtain ⟨q3, hq3⟩ := dropBracket_decomp ((l1.dropWhile isSpaceC).dropWhile isDigitC)
        obtain ⟨q4, hq4⟩ := dropWhile_decomp isSpaceC (dropBracket ((l1.dropWhile isSpaceC).dropWhile isDigitC))
        have hcol := dropColon_decomp _ _ hdc
        refine ⟨p0 ++ q1 ++ q2 ++ q3 ++ q4 ++ [':'], ?_, by simp⟩
        rw [hp0, hq1, hq2, hq3, hq4, hcol]
        simp

theorem tryMatch_decomp (l ds t : List Char) (h : tryMatch l = some (ds, t)) :
    ∃ p, l = p ++ t ∧ p ≠ [] := by
  unfold tryMatch at h
  split at h
  · rename_i t0
    obtain ⟨p, hp, hne⟩ := matchBody_decomp t0 ds t h
    exact ⟨'[' :: p, by simp [hp], by simp⟩
  · exact matchBody_decomp l ds t h

theorem tryMatch_shorter (l ds t : List Char) (h : tryMatch l = some (ds, t)) :
    t.length < l.length := by
  obtain ⟨p, hp, hne⟩ := tryMatch_decomp l ds t h
  rw [hp, List.length_append]
  have : 0 < p.length := List.length_pos.mpr hne
  omega

/-! ### `subGo` and `ibAux` preserve the outer-whitespace property -/

theorem subGo_nil (w : List Char) (fuel : Nat) : subGo w fuel [] = [] := by
  match fuel with
  | 0 => rfl
  | _ + 1 => rfl

theorem subGo_ne_nil (w : List Char) :
    ∀ (fuel : Nat) (l : List Char), l ≠ [] → subGo w fuel l ≠ []
  | 0, l, h => h
  | _ + 1, [], h => absurd rfl h
  | fuel + 1, c :: rest, _ => by
    unfold subGo
    split
    · rename_i ds t _
      show canonRep w ds ++ subGo w fuel t ≠ []
      simp [canonRep]
    · simp

theorem lastOK_of_append_left (p t : List Char) (hne : t ≠ [])
    (h : lastOK (p ++ t) = true) : lastOK t = true := by
  rwa [lastOK_append_right p t hne] at h

theorem subGo_headOK (w : List Char) (hw : headOK w = true) (hwne : w ≠ []) :
    ∀ (fuel : Nat) (l : List Char), headOK l = true → headOK (subGo w fuel l) = true
  | 0, l, h => h
  | _ + 1, [], h => h
  | fuel + 1, c :: rest, h => by
    unfold subGo
    split
    · show headOK (canonRep w _ ++ _) = true
      match w, hwne with
      | a :: w', _ =>
        rw [headOK_cons] at hw
        show headOK (a :: _) = true
        rwa [headOK_cons]
    · rwa [headOK_cons] at *

theorem lastOK_canonRep (w ds : List Char) : lastOK (canonRep w ds) = true := by
  unfold canonRep
  rw [show w ++ ' ' :: (ds ++ [':']) = (w ++ ' ' :: ds) ++ [':'] by simp,
    lastOK_append_right _ [':'] (by simp), lastOK_singleton]
  decide

theorem subGo_lastOK (w : List Char) :
    ∀ (fuel : Nat) (l : List Char), lastOK l = true → lastOK (subGo w fuel l) = true
  | 0, _, h => h
  | _ + 1, [], h => h
  | fuel + 1, c :: rest, h => by
    unfold subGo
    split
    · rename_i ds t htm
      by_cases ht : t = []
      · subst ht
        rw [subGo_nil, List.append_nil]
        exact lastOK_canonRep w ds
      · have hlt : lastOK t = true := by
          obtain ⟨p, hp, _⟩ := tryMatch_decomp (c :: rest) ds t htm
          exact lastOK_of_append_left p t ht (hp ▸ h)
        rw [lastOK_append_right _ _ (subGo_ne_nil w fuel t ht)]
        exact subGo_lastOK w fuel t hlt
    · by_cases hr : rest = []
      · subst hr
        rwa [subGo_nil]
      · rw [lastOK_cons_of_ne_nil c _ (subGo_ne_nil w fuel rest hr)]
        rw [lastOK_cons_of_ne_nil c rest hr] at h
        exact subGo_lastOK w fuel rest h

theorem ibAux_ne_nil (w : List Char) (l : List Char) (h : l ≠ []) :
    ibAux w l ≠ [] := by
  match l with
  | c :: rest =>
    unfold ibAux
    split <;> simp

theorem ibAux_lastOK (w : List Char) :
    ∀ l : List Char, lastOK l = true → lastOK (ibAux w l) = true
  | [], h => h
  | c :: rest, h => by
    unfold ibAux
    by_cases hr : rest = []
    · subst hr
      split
      · show lastOK (['\n', '\n'] ++ [c]) = true
        rwa [lastOK_append_right _ [c] (by simp)]
      · exact h
    · have hlr : lastOK rest = true := by rwa [lastOK_cons_of_ne_nil c rest hr] at h
      have hne := ibAux_ne_nil w rest hr
      split
      · show lastOK ('\n' :: '\n' :: c :: ibAux w rest) = true
        rw [lastOK_cons_of_ne_nil _ _ (by simp), lastOK_cons_of_ne_nil _ _ (by simp),
          lastOK_cons_of_ne_nil c _ hne]
        exact ibAux_lastOK w rest hlr
      · rw [lastOK_cons_of_ne_nil c _ hne]
        exact ibAux_lastOK w rest hlr

theorem insertBreaks_headOK (w : List Char) (l : List Char) (h : headOK l = true) :
    headOK (insertBreaks w l) = true := by
  match l with
  | [] => rfl
  | c :: rest =>
    show headOK (c :: ibAux w rest) = true
    rwa [headOK_cons] at *

theorem insertBreaks_lastOK (w : List Char) (l : List Char) (h : lastOK l = true) :
    lastOK (insertBreaks w l) = true := by
  match l with
  | [] => rfl
  | c :: rest =>
    show lastOK (c :: ibAux w rest) = true
    by_cases hr : rest = []
    · subst hr; exact h
    · rw [lastOK_cons_of_ne_nil c _ (ibAux_ne_nil w rest hr)]
      rw [lastOK_cons_of_ne_nil c rest hr] at h
      exact ibAux_lastOK w rest h

theorem appFormat_headOK (l : List Char) : headOK (appFormat l) = true :=
  insertBreaks_headOK _ _ (subGo_headOK suxWord (by decide) (by decide) _ _
    (collapse_headOK _ (stripWS_headOK l)))

theorem appFormat_lastOK (l : List Char) : lastOK (appFormat l) = true :=
  insertBreaks_lastOK _ _ (subGo_lastOK suxWord _ _
    (collapse_lastOK _ (stripWS_lastOK l)))

/-! ### Marker occurrences in the output of the paragraph-break pass -/

theorem ibAux_cons (w : List Char) (c : Char) (rest : List Char) :
    ibAux w (c :: rest) =
      if markerAt w (c :: rest) then '\n' :: '\n' :: c :: ibAux w rest
      else c :: ibAux w rest := rfl

theorem markerAt_nil (w : List Char) : markerAt w [] = false := by
  unfold markerAt
  have : dropWordE (w ++ [' ']) [] = none := by
    match w with
    | [] => rfl
    | a :: t => rfl
  rw [this]

theorem markerAt_head (w : List Char) (l : List Char) (a : Char)
    (hw : w.head? = some a) (h : markerAt w l = true) : l.head? = some a := by
  unfold markerAt at h
  cases hdw : dropWordE (w ++ [' ']) l with
  | none => rw [hdw] at h; exact absurd h (by simp)
  | some l1 =>
    have hl := dropWordE_decomp _ _ _ hdw
    match w, hw with
    | b :: wt, hw =>
      have hab : a = b := by simpa using hw.symm
      subst hab
      rw [hl]
      simp

theorem ibAux_dropWordE (w : List Char) :
    ∀ (v u z : List Char), v.all (fun a => !(a = '\n')) = true →
      dropWordE v (ibAux w u) = some z →
      ∃ z₀, dropWordE v u = some z₀ ∧ z = ibAux w z₀
  | [], u, z, _, h => ⟨u, rfl, (Option.some.inj h).symm⟩
  | a :: vs, [], z, _, h => by simp [ibAux, dropWordE] at h
  | a :: vs, c :: rest, z, hv, h => by
    have hvs : vs.all (fun a => !(a = '\n')) = true := by
      rw [List.all_cons, Bool.and_eq_true] at hv
      exact hv.2
    have ha : ¬ a = '\n' := by
      rw [List.all_cons, Bool.and_eq_true] at hv
      simpa using hv.1
    unfold ibAux at h
    split at h
    · -- a paragraph break was inserted: the word would have to start with '\n'
      exfalso
      unfold dropWordE at h
      rw [if_neg (by simpa using fun he => ha he.symm)] at h
      exact absurd h (by simp)
    · unfold dropWordE at h
      split at h
      · rename_i hca
        obtain ⟨z₀, hz₀, hz⟩ := ibAux_dropWordE w vs rest z hvs h
        refine ⟨z₀, ?_, hz⟩
        unfold dropWordE
        rw [if_pos hca]
        exact hz₀
      · exact absurd h (by simp)

theorem ibAux_digit_spans (w : List Char) (hw : goodWord w = true) :
    ∀ u : List Char,
      (ibAux w u).dropWhile isDigitC = ibAux w (u.dropWhile isDigitC) ∧
      (ibAux w u).takeWhile isDigitC = u.takeWhile isDigitC
  | [] => ⟨rfl, rfl⟩
  | c :: rest => by
    have ⟨ih1, ih2⟩ := ibAux_digit_spans w hw rest
    rw [ibAux_cons]
    by_cases hm : markerAt w (c :: rest) = true
    · rw [if_pos hm]
      -- the marker starts with the head of `w`, which is not a digit
      have hchar : ¬ isDigitC c = true := by
        match w, hw with
        | b :: wt, hw =>
          have hcb : c = b := by
            have := markerAt_head (b :: wt) (c :: rest) b rfl hm
            simpa using this
          subst hcb
          unfold goodWord at hw
          rw [Bool.and_eq_true, Bool.and_eq_true] at hw
          simpa using hw.1.2
      constructor
      · rw [List.dropWhile_cons, if_neg (by simp [isDigitC]),
          List.dropWhile_cons, if_neg hchar, ibAux_cons, if_pos hm]
      · rw [List.takeWhile_cons, if_neg (by simp [isDigitC]),
          List.takeWhile_cons, if_neg hchar]
    · rw [if_neg hm]
      by_cases hc : isDigitC c = true
      · constructor
        · rw [List.dropWhile_cons, if_pos hc, List.dropWhile_cons, if_pos hc]
          exact ih1
        · rw [List.takeWhile_cons, if_pos hc, List.takeWhile_cons, if_pos hc, ih2]
      · constructor
        · rw [List.dropWhile_cons, if_neg hc, List.dropWhile_cons, if_neg hc,
            ibAux_cons, if_neg hm]
        · rw [List.takeWhile_cons, if_neg hc, List.takeWhile_cons, if_neg hc]

theorem ibAux_dropColon (w y : List Char)
    (h : (dropColon (ibAux w y)).isSome = true) : (dropColon y).isSome = true := by
  match y with
  | [] => exact h
  | c :: rest =>
    unfold ibAux at h
    split at h
    · simp [dropColon] at h
    · unfold dropColon at h ⊢
      split at h
      · rename_i heq
        have hc : c = ':' := by
          have := congrArg List.head? heq
          simpa using this
        subst hc
        simp
      · simp at h

theorem markerAt_of_ibAux (w : List Char) (hw : goodWord w = true)
    (c : Char) (rest : List Char)
    (h : markerAt w (c :: ibAux w rest) = true) : markerAt w (c :: rest) = true := by
  have hwne : w ≠ [] := by
    intro he
    rw [he] at hw
    simp [goodWord] at hw
  obtain ⟨b, wt, rfl⟩ := List.exists_cons_of_ne_nil hwne
  unfold goodWord at hw
  rw [Bool.and_eq_true, Bool.and_eq_true] at hw
  have hwt : (wt ++ [' ']).all (fun a => !(a = '\n')) = true := by
    have h3 := hw.2
    rw [List.all_cons, Bool.and_eq_true] at h3
    rw [List.all_append, Bool.and_eq_true]
    exact ⟨h3.2, by decide⟩
  have hwgood : goodWord (b :: wt) = true := by
    unfold goodWord
    rw [Bool.and_eq_true, Bool.and_eq_true]
    exact hw
  unfold markerAt at h ⊢
  rw [List.cons_append] at h ⊢
  cases hdw : dropWordE (b :: (wt ++ [' '])) (c :: ibAux (b :: wt) rest) with
  | none => rw [hdw] at h; exact absurd h (by simp)
  | some z =>
    rw [hdw] at h
    unfold dropWordE at hdw
    split at hdw
    · rename_i hcb
      obtain ⟨z₀, hz₀, hz⟩ := ibAux_dropWordE (b :: wt) (wt ++ [' ']) rest z hwt hdw
      have hdw' : dropWordE (b :: (wt ++ [' '])) (c :: rest) = some z₀ := by
        unfold dropWordE
        rw [if_pos hcb]
        exact hz₀
      rw [hdw']
      subst hz
      rw [Bool.and_eq_true] at h
      have ⟨hds, hcol⟩ := h
      have ⟨hdrop, htake⟩ := ibAux_digit_spans (b :: wt) hwgood z₀
      rw [Bool.and_eq_true]
      constructor
      · rwa [htake] at hds
      · rw [hdrop] at hcol
        exact ibAux_dropColon (b :: wt) _ hcol
    · exact absurd hdw (by simp)

theorem ibAux_marker_preceded (w : List Char) (hw : goodWord w = true)
    (hwh : ∀ a, w.head? = some a → ¬ a = '\n') :
    ∀ (l : List Char) (j : Nat), markerAt w ((ibAux w l).drop j) = true →
      ∃ k, j = k + 2 ∧ (ibAux w l).drop k = '\n' :: '\n' :: (ibAux w l).drop j
  | [], j, h => by
    rw [show ibAux w [] = [] from rfl, List.drop_nil] at h
    exact absurd h (by simp [markerAt_nil])
  | c :: rest, j, h => by
    have hhead : ∀ (x : List Char), markerAt w ('\n' :: x) = true → False := by
      intro x hx
      match w, hw with
      | b :: wt, hw =>
        have := markerAt_head (b :: wt) ('\n' :: x) b rfl hx
        have hb : b = '\n' := by simpa using this.symm
        exact hwh b rfl hb
    rw [show ibAux w (c :: rest) =
        if markerAt w (c :: rest) then '\n' :: '\n' :: c :: ibAux w rest
        else c :: ibAux w rest from rfl] at *
    by_cases hm : markerAt w (c :: rest) = true
    · rw [if_pos hm] at h ⊢
      match j, h with
      | 0, h => exact absurd h (fun h => hhead _ h)
      | 1, h => exact absurd (by simpa using h) (fun h => hhead _ h)
      | 2, h => exact ⟨0, rfl, rfl⟩
      | (m + 3), h =>
        have h' : markerAt w ((ibAux w rest).drop m) = true := by
          simpa using h
        obtain ⟨k, hk, hdrop⟩ := ibAux_marker_preceded w hw hwh rest m h'
        refine ⟨k + 3, by omega, ?_⟩
        show (ibAux w rest).drop k = '\n' :: '\n' :: ((ibAux w rest).drop m)
        simpa using hdrop
    · rw [if_neg hm] at h ⊢
      match j, h with
      | 0, h =>
        exact absurd (markerAt_of_ibAux w hw c rest (by simpa using h)) hm
      | (m + 1), h =>
        have h' : markerAt w ((ibAux w rest).drop m) = true := by
          simpa using h
        obtain ⟨k, hk, hdrop⟩ := ibAux_marker_preceded w hw hwh rest m h'
        refine ⟨k + 1, by omega, ?_⟩
        show (ibAux w rest).drop k = '\n' :: '\n' :: ((ibAux w rest).drop m)
        simpa using hdrop

theorem insertBreaks_marker_preceded (w : List Char) (hw : goodWord w = true)
    (hwh : ∀ a, w.head? = some a → ¬ a = '\n') (l : List Char) (i : Nat)
    (h : markerAt w ((insertBreaks w l).drop i) = true) (hi : i ≠ 0) :
    ∃ k, i = k + 2 ∧
      (insertBreaks w l).drop k = '\n' :: '\n' :: (insertBreaks w l).drop i := by
  match l with
  | [] =>
    rw [show insertBreaks w [] = [] from rfl, List.drop_nil] at h
    exact absurd h (by simp [markerAt_nil])
  | c :: rest =>
    rw [show insertBreaks w (c :: rest) = c :: ibAux w rest from rfl] at *
    match i, hi with
    | (m + 1), _ =>
      have h' : markerAt w ((ibAux w rest).drop m) = true := by simpa using h
      obtain ⟨k, hk, hdrop⟩ := ibAux_marker_preceded w hw hwh rest m h'
      refine ⟨k + 1, by omega, ?_⟩
      show (ibAux w rest).drop k = '\n' :: '\n' :: ((ibAux w rest).drop m)
      simpa using hdrop

/-! ### A match at the head survives extending the list on the right -/

theorem dropWhile_append_ne (p : Char → Bool) (m v : List Char)
    (h : m.dropWhile p ≠ []) : (m ++ v).dropWhile p = m.dropWhile p ++ v := by
  rw [List.dropWhile_append, if_neg (by simpa using h)]

theorem takeWhile_append_ne (p : Char → Bool) (m v : List Char)
    (h : m.dropWhile p ≠ []) : (m ++ v).takeWhile p = m.takeWhile p := by
  rw [List.takeWhile_append, if_neg]
  intro hlen
  apply h
  have := List.takeWhile_append_dropWhile p m
  have hd := congrArg List.length this
  rw [List.length_append] at hd
  have : (m.dropWhile p).length = 0 := by omega
  simpa using this

theorem dropWordCI_append :
    ∀ (w m r : List Char), dropWordCI w m = some r →
      ∀ v, dropWordCI w (m ++ v) = some (r ++ v)
  | [], m, r, h, v => by
    rw [show dropWordCI [] (m ++ v) = some (m ++ v) from rfl,
      Option.some.inj (h : some m = some r)]
  | _ :: _, [], _, h, _ => by simp [dropWordCI] at h
  | a :: ws, c :: m', r, h, v => by
    unfold dropWordCI at h
    split at h
    · rename_i hca
      rw [List.cons_append]
      unfold dropWordCI
      rw [if_pos hca]
      exact dropWordCI_append ws m' r h v
    · exact absurd h (by simp)

theorem dropWordE_append :
    ∀ (w m r : List Char), dropWordE w m = some r →
      ∀ v, dropWordE w (m ++ v) = some (r ++ v)
  | [], m, r, h, v => by
    rw [show dropWordE [] (m ++ v) = some (m ++ v) from rfl,
      Option.some.inj (h : some m = some r)]
  | _ :: _, [], _, h, _ => by simp [dropWordE] at h
  | a :: ws, c :: m', r, h, v => by
    unfold dropWordE at h
    split at h
    · rename_i hca
      rw [List.cons_append]
      unfold dropWordE
      rw [if_pos hca]
      exact dropWordE_append ws m' r h v
    · exact absurd h (by simp)

theorem dropBracket_cons_ne (c : Char) (t : List Char) (hc : ¬ c = ']') :
    dropBracket (c :: t) = c :: t := by
  unfold dropBracket
  split
  · rename_i heq
    exact absurd (congrArg List.head? heq) (by simpa using fun he => hc he)
  · rfl

theorem dropBracket_append (m v : List Char) (hne : m ≠ []) :
    dropBracket (m ++ v) = dropBracket m ++ v := by
  match m with
  | c :: t =>
    by_cases hc : c = ']'
    · subst hc
      rfl
    · rw [List.cons_append, dropBracket_cons_ne c t hc,
        dropBracket_cons_ne c (t ++ v) hc]
      rfl

theorem dropColon_append (m r v : List Char) (h : dropColon m = some r) :
    dropColon (m ++ v) = some (r ++ v) := by
  rw [dropColon_decomp m r h]
  rfl

theorem matchBody_append (m ds t : List Char) (h : matchBody m = some (ds, t)) (v : List Char) :
    matchBody (m ++ v) = some (ds, t ++ v) := by
  unfold matchBody at h
  cases hdw : dropWordCI speakerWord m with
  | none => rw [hdw] at h; exact absurd h (by simp)
  | some l1 =>
    rw [hdw] at h
    simp only at h
    split at h
    · exact absurd h (by simp)
    · rename_i hne
      cases hdc : dropColon ((dropBracket ((l1.dropWhile isSpaceC).dropWhile isDigitC)).dropWhile isSpaceC) with
      | none => rw [hdc] at h; exact absurd h (by simp)
      | some t' =>
        rw [hdc] at h
        have hds : ds = (l1.dropWhile isSpaceC).takeWhile isDigitC :=
          congrArg Prod.fst (Option.some.inj h).symm
        have ht : t = t' := congrArg Prod.snd (Option.some.inj h).symm
        subst ht
        -- nonemptiness of every intermediate step, from the success of the colon step
        have h5 : (dropBracket ((l1.dropWhile isSpaceC).dropWhile isDigitC)).dropWhile isSpaceC = ':' :: t :=
          dropColon_decomp _ _ hdc
        have h4 : dropBracket ((l1.dropWhile isSpaceC).dropWhile isDigitC) ≠ [] := by
          intro he
          rw [he] at h5
          simp at h5
        have h3 : (l1.dropWhile isSpaceC).dropWhile isDigitC ≠ [] := by
          intro he
          rw [he] at h4
          exact h4 rfl
        have h2ne : l1.dropWhile isSpaceC ≠ [] := by
          intro he
          rw [he] at hne
          simp at hne
        unfold matchBody
        rw [dropWordCI_append speakerWord m l1 hdw v]
        simp only
        rw [dropWhile_append_ne isSpaceC l1 v h2ne]
        rw [takeWhile_append_ne isDigitC (l1.dropWhile isSpaceC) v h3]
        rw [if_neg (by simpa using hne)]
        rw [dropWhile_append_ne isDigitC (l1.dropWhile isSpaceC) v h3]
        rw [dropBracket_append _ v h3]
        rw [dropWhile_append_ne isSpaceC _ v (by rw [h5]; simp)]
        rw [dropColon_append _ t v hdc]
        rw [hds]

theorem tryMatch_append (m ds t : List Char) (h : tryMatch m = some (ds, t)) (v : List Char) :
    tryMatch (m ++ v) = some (ds, t ++ v) := by
  match m with
  | [] => exact absurd h (by simp [tryMatch, matchBody, speakerWord, dropWordCI])
  | '[' :: m' =>
    rw [show tryMatch ('[' :: m') = matchBody m' from rfl] at h
    rw [List.cons_append, show tryMatch ('[' :: (m' ++ v)) = matchBody (m' ++ v) from rfl]
    exact matchBody_append m' ds t h v
  | c :: m' =>
    by_cases hc : c = '['
    · subst hc
      rw [show tryMatch ('[' :: m') = matchBody m' from rfl] at h
      rw [List.cons_append, show tryMatch ('[' :: (m' ++ v)) = matchBody (m' ++ v) from rfl]
      exact matchBody_append m' ds t h v
    · have h1 : tryMatch (c :: m') = matchBody (c :: m') := by
        unfold tryMatch
        split
        · rename_i heq
          exact absurd (congrArg List.head? heq) (by simpa using fun he => hc he)
        · rfl
      have h2 : tryMatch (c :: m' ++ v) = matchBody (c :: m' ++ v) := by
        unfold tryMatch
        split
        · rename_i heq
          exact absurd (congrArg List.head? heq) (by simpa using fun he => hc he)
        · rfl
      rw [h1] at h
      rw [h2]
      exact matchBody_append (c :: m') ds t h v

theorem markerAt_append (w m v : List Char) (h : markerAt w m = true) :
    markerAt w (m ++ v) = true := by
  unfold markerAt at h ⊢
  cases hdw : dropWordE (w ++ [' ']) m with
  | none => rw [hdw] at h; exact absurd h (by simp)
  | some l1 =>
    rw [hdw] at h
    rw [Bool.and_eq_true] at h
    obtain ⟨hds, hcol⟩ := h
    rw [Option.isSome_iff_exists] at hcol
    obtain ⟨t, hcolt⟩ := hcol
    have h3 : l1.dropWhile isDigitC ≠ [] := by
      intro he
      rw [he] at hcolt
      simp [dropColon] at hcolt
    rw [dropWordE_append (w ++ [' ']) m l1 hdw v]
    rw [Bool.and_eq_true]
    constructor
    · rwa [takeWhile_append_ne isDigitC l1 v h3]
    · rw [dropWhile_append_ne isDigitC l1 v h3, dropColon_append _ t v hcolt]
      rfl

/-! ### Scanning lemmas: matches in parts vs. matches in the whole -/

theorem hasSpeakerMatch_cons (c : Char) (l : List Char) :
    hasSpeakerMatch (c :: l) = ((tryMatch (c :: l)).isSome || hasSpeakerMatch l) := rfl

theorem hasMarker_cons (w : List Char) (c : Char) (l : List Char) :
    hasMarker w (c :: l) = (markerAt w (c :: l) || hasMarker w l) := rfl

theorem hasSpeakerMatch_suffix :
    ∀ (p t : List Char), hasSpeakerMatch (p ++ t) = false → hasSpeakerMatch t = false
  | [], _, h => h
  | c :: p', t, h => by
    rw [List.cons_append, hasSpeakerMatch_cons, Bool.or_eq_false_iff] at h
    exact hasSpeakerMatch_suffix p' t h.2

theorem hasMarker_suffix (w : List Char) :
    ∀ (p t : List Char), hasMarker w (p ++ t) = false → hasMarker w t = false
  | [], _, h => h
  | c :: p', t, h => by
    rw [List.cons_append, hasMarker_cons, Bool.or_eq_false_iff] at h
    exact hasMarker_suffix w p' t h.2

theorem hasSpeakerMatch_append_right :
    ∀ (p t : List Char), hasSpeakerMatch t = true → hasSpeakerMatch (p ++ t) = true
  | [], _, h => h
  | c :: p', t, h => by
    rw [List.cons_append, hasSpeakerMatch_cons,
      hasSpeakerMatch_append_right p' t h]
    simp

theorem hasMarker_append_right (w : List Char) :
    ∀ (p t : List Char), hasMarker w t = true → hasMarker w (p ++ t) = true
  | [], _, h => h
  | c :: p', t, h => by
    rw [List.cons_append, hasMarker_cons, hasMarker_append_right w p' t h]
    simp

theorem hasSpeakerMatch_append_left :
    ∀ (m v : List Char), hasSpeakerMatch m = true → hasSpeakerMatch (m ++ v) = true
  | [], _, h => by simp [hasSpeakerMatch] at h
  | c :: m', v, h => by
    rw [hasSpeakerMatch_cons, Bool.or_eq_true] at h
    rw [List.cons_append, hasSpeakerMatch_cons]
    rcases h with h | h
    · rw [Option.isSome_iff_exists] at h
      obtain ⟨⟨ds, t⟩, htm⟩ := h
      rw [show c :: (m' ++ v) = (c :: m') ++ v from rfl,
        tryMatch_append (c :: m') ds t htm v]
      simp
    · rw [hasSpeakerMatch_append_left m' v h]
      simp

theorem hasMarker_append_left (w : List Char) :
    ∀ (m v : List Char), hasMarker w m = true → hasMarker w (m ++ v) = true
  | [], _, h => by simp [hasMarker] at h
  | c :: m', v, h => by
    rw [hasMarker_cons, Bool.or_eq_true] at h
    rw [List.cons_append, hasMarker_cons]
    rcases h with h | h
    · rw [show c :: (m' ++ v) = (c :: m') ++ v from rfl,
        markerAt_append w (c :: m') v h]
      simp
    · rw [hasMarker_append_left w m' v h]
      simp

/-! ### `stripWS` preserves the absence of matches -/

theorem stripWS_decomp (l : List Char) :
    ∃ p v, l = p ++ (stripWS l ++ v) := by
  set Y := l.dropWhile isSpaceC with hY
  have hdec : Y = (Y.reverse.dropWhile isSpaceC).reverse ++
      (Y.reverse.takeWhile isSpaceC).reverse := by
    conv_lhs => rw [← List.reverse_reverse Y,
      ← List.takeWhile_append_dropWhile isSpaceC Y.reverse]
    rw [List.reverse_append]
  refine ⟨l.takeWhile isSpaceC, (Y.reverse.takeWhile isSpaceC).reverse, ?_⟩
  have hs : stripWS l = (Y.reverse.dropWhile isSpaceC).reverse := rfl
  rw [hs, ← hdec, hY, List.takeWhile_append_dropWhile]

theorem stripWS_no_speaker (l : List Char) (h : hasSpeakerMatch l = false) :
    hasSpeakerMatch (stripWS l) = false := by
  by_contra hs
  rw [Bool.not_eq_false] at hs
  obtain ⟨p, v, hdec⟩ := stripWS_decomp l
  rw [hdec] at h
  rw [← Bool.not_eq_true] at h
  exact h (hasSpeakerMatch_append_right p _
    (hasSpeakerMatch_append_left _ v hs))

theorem stripWS_no_marker (w : List Char) (l : List Char)
    (h : hasMarker w l = false) : hasMarker w (stripWS l) = false := by
  by_contra hs
  rw [Bool.not_eq_false] at hs
  obtain ⟨p, v, hdec⟩ := stripWS_decomp l
  rw [hdec] at h
  rw [← Bool.not_eq_true] at h
  exact h (hasMarker_append_right w p _ (hasMarker_append_left w _ v hs))

/-! ### Matches survive the blank-run collapsing pass (backwards) -/

theorem collapseGo_succ_cons :
    ∀ (X : List Char) (k : Nat), ∃ Y, collapseGo (k + 1) X = '\n' :: Y
  | [], k => by
    rw [collapseGo_nil]
    by_cases h : 3 ≤ k + 1
    · exact ⟨['\n'], by rw [collapseEmit_big _ h]⟩
    · exact ⟨List.replicate k '\n', by rw [collapseEmit_small _ (by omega)]; rfl⟩
  | c :: rest, k => by
    rw [collapseGo_cons]
    by_cases hc : c = '\n'
    · rw [if_pos hc]
      exact collapseGo_succ_cons rest (k + 1)
    · rw [if_neg hc]
      by_cases h : 3 ≤ k + 1
      · exact ⟨'\n' :: (c :: collapseGo 0 rest), by rw [collapseEmit_big _ h]; rfl⟩
      · refine ⟨List.replicate k '\n' ++ c :: collapseGo 0 rest, ?_⟩
        rw [collapseEmit_small _ (by omega)]
        rfl

theorem collapseGo_zero_cons_ne (c : Char) (rest : List Char) (hc : ¬ c = '\n') :
    collapseGo 0 (c :: rest) = c :: collapseGo 0 rest := by
  rw [collapseGo_cons, if_neg hc, collapseEmit_small 0 (by omega)]
  rfl

theorem collapseGo_zero_nil : collapseGo 0 [] = [] := rfl

theorem collapseEmit_all_nl (k : Nat) : (collapseEmit k).all (fun a => a = '\n') = true := by
  unfold collapseEmit
  by_cases h : 3 ≤ k
  · rw [if_pos h]; rfl
  · rw [if_neg h]
    simp [List.all_eq_true]

theorem dropWhile_isSpace_collapseGo :
    ∀ (v : List Char) (k : Nat),
      (collapseGo k v).dropWhile isSpaceC = collapseGo 0 (v.dropWhile isSpaceC)
  | [], k => by
    rw [collapseGo_nil]
    have : (collapseEmit k).dropWhile isSpaceC = [] := by
      rw [List.dropWhile_eq_nil_iff]
      intro x hx
      have := collapseEmit_all_nl k
      rw [List.all_eq_true] at this
      have hx' := this x hx
      simp at hx'
      rw [hx']
      decide
    rw [this]
    rfl
  | c :: rest, k => by
    rw [collapseGo_cons]
    by_cases hc : c = '\n'
    · rw [if_pos hc, dropWhile_isSpace_collapseGo rest (k + 1)]
      rw [List.dropWhile_cons, if_pos (by rw [hc]; decide)]

    · rw [if_neg hc]
      by_cases hs : isSpaceC c = true
      · have hdrop : (collapseEmit k ++ c :: collapseGo 0 rest).dropWhile isSpaceC =
            (collapseGo 0 rest).dropWhile isSpaceC := by
          rw [List.dropWhile_append, if_pos (by
            rw [List.isEmpty_iff, List.dropWhile_eq_nil_iff]
            intro x hx
            have := collapseEmit_all_nl k
            rw [List.all_eq_true] at this
            have hx' := this x hx
            simp at hx'
            rw [hx']
            decide)]
          rw [List.dropWhile_cons, if_pos hs]
        rw [hdrop, dropWhile_isSpace_collapseGo rest 0,
          List.dropWhile_cons, if_pos hs]
      · have hdrop : (collapseEmit k ++ c :: collapseGo 0 rest).dropWhile isSpaceC =
            c :: collapseGo 0 rest := by
          rw [List.dropWhile_append, if_pos (by
            rw [List.isEmpty_iff, List.dropWhile_eq_nil_iff]
            intro x hx
            have := collapseEmit_all_nl k
            rw [List.all_eq_true] at this
            have hx' := this x hx
            simp at hx'
            rw [hx']
            decide)]
          rw [List.dropWhile_cons, if_neg hs]
        rw [hdrop, List.dropWhile_cons, if_neg hs,
          collapseGo_zero_cons_ne c rest hc]

theorem digit_spans_collapseGo :
    ∀ v : List Char,
      (collapseGo 0 v).dropWhile isDigitC = collapseGo 0 (v.dropWhile isDigitC) ∧
      (collapseGo 0 v).takeWhile isDigitC = v.takeWhile isDigitC
  | [] => ⟨rfl, rfl⟩
  | c :: rest => by
    by_cases hc : c = '\n'
    · subst hc
      obtain ⟨Y, hY⟩ := collapseGo_succ_cons rest 0
      have h0 : collapseGo 0 ('\n' :: rest) = '\n' :: Y := by
        rw [collapseGo_cons, if_pos rfl]
        exact hY
      constructor
      · rw [h0, List.dropWhile_cons, if_neg (by decide),
          List.dropWhile_cons, if_neg (by decide), h0]
      · rw [h0, List.takeWhile_cons, if_neg (by decide),
          List.takeWhile_cons, if_neg (by decide)]
    · have ⟨ih1, ih2⟩ := digit_spans_collapseGo rest
      rw [collapseGo_zero_cons_ne c rest hc]
      by_cases hd : isDigitC c = true
      · constructor
        · rw [List.dropWhile_cons, if_pos hd, List.dropWhile_cons, if_pos hd, ih1]
        · rw [List.takeWhile_cons, if_pos hd, List.takeWhile_cons, if_pos hd, ih2]
      · constructor
        · rw [List.dropWhile_cons, if_neg hd, List.dropWhile_cons, if_neg hd,
            collapseGo_zero_cons_ne c rest hc]
        · rw [List.takeWhile_cons, if_neg hd, List.takeWhile_cons, if_neg hd]

theorem dropBracket_collapseGo (y : List Char) :
    dropBracket (collapseGo 0 y) = collapseGo 0 (dropBracket y) := by
  match y with
  | [] => rfl
  | ']' :: t => rw [collapseGo_zero_cons_ne ']' t (by decide)]; rfl
  | c :: t =>
    by_cases hc : c = ']'
    · subst hc
      rw [collapseGo_zero_cons_ne ']' t (by decide)]
      rfl
    · rw [dropBracket_cons_ne c t hc]
      by_cases hn : c = '\n'
      · subst hn
        obtain ⟨Y, hY⟩ := collapseGo_succ_cons t 0
        have h0 : collapseGo 0 ('\n' :: t) = '\n' :: Y := by
          rw [collapseGo_cons, if_pos rfl]; exact hY
        rw [h0, dropBracket_cons_ne '\n' Y (by decide)]
      · rw [collapseGo_zero_cons_ne c t hn, dropBracket_cons_ne c _ hc]

theorem dropColon_cons_ne (c : Char) (t : List Char) (hc : ¬ c = ':') :
    dropColon (c :: t) = none := by
  unfold dropColon
  split
  · rename_i heq
    exact absurd (congrArg List.head? heq) (by simpa using fun he => hc he)
  · rfl

theorem dropColon_collapseGo (y t : List Char)
    (h : dropColon (collapseGo 0 y) = some t) :
    ∃ t₀, dropColon y = some t₀ ∧ t = collapseGo 0 t₀ := by
  match y with
  | [] =>
    rw [collapseGo_zero_nil] at h
    exact absurd h (by simp [dropColon])
  | c :: y' =>
    by_cases hc : c = ':'
    · subst hc
      rw [collapseGo_zero_cons_ne ':' y' (by decide)] at h
      refine ⟨y', rfl, ?_⟩
      have : dropColon (':' :: collapseGo 0 y') = some (collapseGo 0 y') := rfl
      rw [this] at h
      exact (Option.some.inj h).symm
    · exfalso
      by_cases hn : c = '\n'
      · subst hn
        obtain ⟨Y, hY⟩ := collapseGo_succ_cons y' 0
        rw [show collapseGo 0 ('\n' :: y') = collapseGo 1 y' from
          by rw [collapseGo_cons, if_pos rfl], hY,
          dropColon_cons_ne '\n' Y (by decide)] at h
        exact absurd h (by simp)
      · rw [collapseGo_zero_cons_ne c y' hn, dropColon_cons_ne c _ hc] at h
        exact absurd h (by simp)

theorem dropWordCI_collapseGo :
    ∀ (v u z : List Char), v.all (fun a => !(a = '\n')) = true →
      dropWordCI v (collapseGo 0 u) = some z →
      ∃ z₀, dropWordCI v u = some z₀ ∧ z = collapseGo 0 z₀
  | [], u, z, _, h => ⟨u, rfl, (Option.some.inj h).symm⟩
  | a :: vs, [], z, _, h => by
    rw [collapseGo_zero_nil] at h
    simp [dropWordCI] at h
  | a :: vs, c :: u', z, hv, h => by
    rw [List.all_cons, Bool.and_eq_true] at hv
    have ha : ¬ a = '\n' := by simpa using hv.1
    by_cases hc : c = '\n'
    · exfalso
      subst hc
      obtain ⟨Y, hY⟩ := collapseGo_succ_cons u' 0
      rw [show collapseGo 0 ('\n' :: u') = collapseGo 1 u' from
        by rw [collapseGo_cons, if_pos rfl], hY] at h
      unfold dropWordCI at h
      rw [if_neg (by simpa using fun he : '\n'.toLower = a => ha (by
        rw [← he]; decide))] at h
      exact absurd h (by simp)
    · rw [collapseGo_zero_cons_ne c u' hc] at h
      unfold dropWordCI at h ⊢
      split at h
      · rename_i hca
        obtain ⟨z₀, hz₀, hz⟩ := dropWordCI_collapseGo vs u' z hv.2 h
        rw [if_pos hca]
        exact ⟨z₀, hz₀, hz⟩
      · exact absurd h (by simp)

theorem dropWordE_collapseGo :
    ∀ (v u z : List Char), v.all (fun a => !(a = '\n')) = true →
      dropWordE v (collapseGo 0 u) = some z →
      ∃ z₀, dropWordE v u = some z₀ ∧ z = collapseGo 0 z₀
  | [], u, z, _, h => ⟨u, rfl, (Option.some.inj h).symm⟩
  | a :: vs, [], z, _, h => by
    rw [collapseGo_zero_nil] at h
    simp [dropWordE] at h
  | a :: vs, c :: u', z, hv, h => by
    rw [List.all_cons, Bool.and_eq_true] at hv
    have ha : ¬ a = '\n' := by simpa using hv.1
    by_cases hc : c = '\n'
    · exfalso
      subst hc
      obtain ⟨Y, hY⟩ := collapseGo_succ_cons u' 0
      rw [show collapseGo 0 ('\n' :: u') = collapseGo 1 u' from
        by rw [collapseGo_cons, if_pos rfl], hY] at h
      unfold dropWordE at h
      rw [if_neg (by simpa using fun he : '\n' = a => ha he.symm)] at h
      exact absurd h (by simp)
    · rw [collapseGo_zero_cons_ne c u' hc] at h
      unfold dropWordE at h ⊢
      split at h
      · rename_i hca
        obtain ⟨z₀, hz₀, hz⟩ := dropWordE_collapseGo vs u' z hv.2 h
        rw [if_pos hca]
        exact ⟨z₀, hz₀, hz⟩
      · exact absurd h (by simp)

theorem matchBody_collapseGo (m ds t : List Char)
    (h : matchBody (collapseGo 0 m) = some (ds, t)) :
    ∃ t₀, matchBody m = some (ds, t₀) := by
  unfold matchBody at h
  cases hdw : dropWordCI speakerWord (collapseGo 0 m) with
  | none => rw [hdw] at h; exact absurd h (by simp)
  | some z =>
    rw [hdw] at h
    simp only at h
    obtain ⟨z₀, hz₀, hz⟩ := dropWordCI_collapseGo speakerWord m z (by decide) hdw
    subst hz
    rw [dropWhile_isSpace_collapseGo z₀ 0,
      (digit_spans_collapseGo (z₀.dropWhile isSpaceC)).2,
      (digit_spans_collapseGo (z₀.dropWhile isSpaceC)).1,
      dropBracket_collapseGo,
      dropWhile_isSpace_collapseGo _ 0] at h
    split at h
    · exact absurd h (by simp)
    · rename_i hne
      cases hdc : dropColon (collapseGo 0
          ((dropBracket ((z₀.dropWhile isSpaceC).dropWhile isDigitC)).dropWhile isSpaceC)) with
      | none => rw [hdc] at h; exact absurd h (by simp)
      | some t' =>
        rw [hdc] at h
        obtain ⟨t₀, ht₀, ht'⟩ := dropColon_collapseGo _ t' hdc
        refine ⟨t₀, ?_⟩
        unfold matchBody
        rw [hz₀]
        simp only
        rw [if_neg hne, ht₀]
        have hds : ds = (z₀.dropWhile isSpaceC).takeWhile isDigitC :=
          congrArg Prod.fst (Option.some.inj h).symm
        rw [hds]

theorem tryMatch_nl (Y : List Char) : tryMatch ('\n' :: Y) = none := by
  have h1 : tryMatch ('\n' :: Y) = matchBody ('\n' :: Y) := by
    unfold tryMatch
    split
    · rename_i heq
      exact absurd (congrArg List.head? heq) (by simp)
    · rfl
  rw [h1]
  unfold matchBody
  rw [show dropWordCI speakerWord ('\n' :: Y) = none from by
    unfold speakerWord dropWordCI
    rw [if_neg (by decide)]]

theorem tryMatch_collapseGo (m ds t : List Char)
    (h : tryMatch (collapseGo 0 m) = some (ds, t)) :
    ∃ t₀, tryMatch m = some (ds, t₀) := by
  match m with
  | [] =>
    rw [collapseGo_zero_nil] at h
    exact absurd h (by simp [tryMatch, matchBody, speakerWord, dropWordCI])
  | '[' :: m' =>
    rw [collapseGo_zero_cons_ne '[' m' (by decide),
      show tryMatch ('[' :: collapseGo 0 m') = matchBody (collapseGo 0 m') from rfl] at h
    obtain ⟨t₀, ht₀⟩ := matchBody_collapseGo m' ds t h
    exact ⟨t₀, by rw [show tryMatch ('[' :: m') = matchBody m' from rfl]; exact ht₀⟩
  | c :: m' =>
    by_cases hb : c = '['
    · subst hb
      rw [collapseGo_zero_cons_ne '[' m' (by decide),
        show tryMatch ('[' :: collapseGo 0 m') = matchBody (collapseGo 0 m') from rfl] at h
      obtain ⟨t₀, ht₀⟩ := matchBody_collapseGo m' ds t h
      exact ⟨t₀, by rw [show tryMatch ('[' :: m') = matchBody m' from rfl]; exact ht₀⟩
    · by_cases hc : c = '\n'
      · exfalso
        subst hc
        obtain ⟨Y, hY⟩ := collapseGo_succ_cons m' 0
        rw [show collapseGo 0 ('\n' :: m') = collapseGo 1 m' from
          by rw [collapseGo_cons, if_pos rfl], hY, tryMatch_nl] at h
        exact absurd h (by simp)
      · rw [collapseGo_zero_cons_ne c m' hc] at h
        have htm : tryMatch (c :: collapseGo 0 m') = matchBody (c :: collapseGo 0 m') := by
          unfold tryMatch
          split
          · rename_i heq
            exact absurd (congrArg List.head? heq) (by simpa using fun he => hb he)
          · rfl
        rw [htm, ← collapseGo_zero_cons_ne c m' hc] at h
        obtain ⟨t₀, ht₀⟩ := matchBody_collapseGo (c :: m') ds t h
        refine ⟨t₀, ?_⟩
        have htm' : tryMatch (c :: m') = matchBody (c :: m') := by
          unfold tryMatch
          split
          · rename_i heq
            exact absurd (congrArg List.head? heq) (by simpa using fun he => hb he)
          · rfl
        rw [htm']
        exact ht₀

theorem markerAt_collapseGo (w : List Char)
    (hw : (w ++ [' ']).all (fun a => !(a = '\n')) = true) (m : List Char)
    (h : markerAt w (collapseGo 0 m) = true) : markerAt w m = true := by
  unfold markerAt at h ⊢
  cases hdw : dropWordE (w ++ [' ']) (collapseGo 0 m) with
  | none => rw [hdw] at h; exact absurd h (by simp)
  | some z =>
    rw [hdw] at h
    obtain ⟨z₀, hz₀, hz⟩ := dropWordE_collapseGo (w ++ [' ']) m z hw hdw
    subst hz
    rw [hz₀]
    rw [Bool.and_eq_true] at h ⊢
    obtain ⟨hds, hcol⟩ := h
    constructor
    · rwa [(digit_spans_collapseGo z₀).2] at hds
    · rw [(digit_spans_collapseGo z₀).1] at hcol
      rw [Option.isSome_iff_exists] at hcol
      obtain ⟨t', ht'⟩ := hcol
      obtain ⟨t₀, ht₀, _⟩ := dropColon_collapseGo _ t' ht'
      rw [ht₀]
      rfl

theorem markerAt_nl (w : List Char)
    (hw : (w ++ [' ']).all (fun a => !(a = '\n')) = true) (x : List Char) :
    markerAt w ('\n' :: x) = false := by
  unfold markerAt
  match w with
  | [] =>
    rw [show ([] : List Char) ++ [' '] = [' '] from rfl,
      show dropWordE [' '] ('\n' :: x) = none from by
        unfold dropWordE
        rw [if_neg (by decide)]]
  | b :: wt =>
    have hb : ¬ b = '\n' := by
      rw [List.cons_append, List.all_cons, Bool.and_eq_true] at hw
      simpa using hw.1
    rw [List.cons_append,
      show dropWordE (b :: (wt ++ [' '])) ('\n' :: x) = none from by
        unfold dropWordE
        rw [if_neg (by simpa using fun he : '\n' = b => hb he.symm)]]

theorem hasSpeakerMatch_nl_run :
    ∀ (A X : List Char), A.all (fun a => a = '\n') = true →
      hasSpeakerMatch (A ++ X) = hasSpeakerMatch X
  | [], _, _ => rfl
  | a :: A', X, h => by
    rw [List.all_cons, Bool.and_eq_true] at h
    have ha : a = '\n' := by simpa using h.1
    subst ha
    rw [List.cons_append, hasSpeakerMatch_cons, tryMatch_nl]
    rw [hasSpeakerMatch_nl_run A' X h.2]
    simp

theorem hasMarker_nl_run (w : List Char)
    (hw : (w ++ [' ']).all (fun a => !(a = '\n')) = true) :
    ∀ (A X : List Char), A.all (fun a => a = '\n') = true →
      hasMarker w (A ++ X) = hasMarker w X
  | [], _, _ => rfl
  | a :: A', X, h => by
    rw [List.all_cons, Bool.and_eq_true] at h
    have ha : a = '\n' := by simpa using h.1
    subst ha
    rw [List.cons_append, hasMarker_cons, markerAt_nl w hw]
    rw [hasMarker_nl_run w hw A' X h.2]
    simp

theorem hasSpeakerMatch_collapseGo :
    ∀ (l : List Char) (k : Nat),
      hasSpeakerMatch (collapseGo k l) = true → hasSpeakerMatch l = true
  | [], k, h => by
    exfalso
    rw [collapseGo_nil] at h
    have : hasSpeakerMatch (collapseEmit k) = false := by
      have h2 := hasSpeakerMatch_nl_run (collapseEmit k) []
        (by simpa using collapseEmit_all_nl k)
      rw [List.append_nil] at h2
      rw [h2]
      rfl
    rw [this] at h
    exact absurd h (by simp)
  | c :: rest, k, h => by
    rw [collapseGo_cons] at h
    by_cases hc : c = '\n'
    · rw [if_pos hc] at h
      rw [hasSpeakerMatch_cons, hasSpeakerMatch_collapseGo rest (k + 1) h]
      simp
    · rw [if_neg hc] at h
      rw [hasSpeakerMatch_nl_run (collapseEmit k) _
        (by simpa using collapseEmit_all_nl k)] at h
      rw [hasSpeakerMatch_cons, Bool.or_eq_true] at h
      rcases h with h | h
      · rw [Option.isSome_iff_exists] at h
        obtain ⟨⟨ds, t⟩, htm⟩ := h
        rw [← collapseGo_zero_cons_ne c rest hc] at htm
        obtain ⟨t₀, ht₀⟩ := tryMatch_collapseGo (c :: rest) ds t htm
        rw [hasSpeakerMatch_cons, ht₀]
        simp
      · rw [hasSpeakerMatch_cons, hasSpeakerMatch_collapseGo rest 0 h]
        simp

theorem hasMarker_collapseGo (w : List Char)
    (hw : (w ++ [' ']).all (fun a => !(a = '\n')) = true) :
    ∀ (l : List Char) (k : Nat),
      hasMarker w (collapseGo k l) = true → hasMarker w l = true
  | [], k, h => by
    exfalso
    rw [collapseGo_nil] at h
    have : hasMarker w (collapseEmit k) = false := by
      have h2 := hasMarker_nl_run w hw (collapseEmit k) []
        (by simpa using collapseEmit_all_nl k)
      rw [List.append_nil] at h2
      rw [h2]
      rfl
    rw [this] at h
    exact absurd h (by simp)
  | c :: rest, k, h => by
    rw [collapseGo_cons] at h
    by_cases hc : c = '\n'
    · rw [if_pos hc] at h
      rw [hasMarker_cons, hasMarker_collapseGo w hw rest (k + 1) h]
      simp
    · rw [if_neg hc] at h
      rw [hasMarker_nl_run w hw (collapseEmit k) _
        (by simpa using collapseEmit_all_nl k)] at h
      rw [hasMarker_cons, Bool.or_eq_true] at h
      rcases h with h | h
      · rw [← collapseGo_zero_cons_ne c rest hc] at h
        rw [hasMarker_cons, markerAt_collapseGo w hw (c :: rest) h]
        simp
      · rw [hasMarker_cons, hasMarker_collapseGo w hw rest 0 h]
        simp

/-! ### The collapsing pass is idempotent -/

theorem noTripleNL_cons_ne (c : Char) (B : List Char) (hc : ¬ c = '\n') :
    noTripleNL (c :: B) = noTripleNL B := by
  match B with
  | [] => rfl
  | [b] => rfl
  | b1 :: b2 :: B' =>
    show (!(c = '\n' && b1 = '\n' && b2 = '\n') && noTripleNL (b1 :: b2 :: B')) = _
    simp [hc]

theorem noTripleNL_nl_cons_ne (c : Char) (B : List Char) (hc : ¬ c = '\n') :
    noTripleNL ('\n' :: c :: B) = noTripleNL B := by
  match B with
  | [] => rfl
  | b :: B' =>
    show (!('\n' = '\n' && c = '\n' && b = '\n') && noTripleNL (c :: b :: B')) = _
    rw [noTripleNL_cons_ne c (b :: B') hc]
    simp [hc]

theorem noTripleNL_nl_nl_cons_ne (c : Char) (B : List Char) (hc : ¬ c = '\n') :
    noTripleNL ('\n' :: '\n' :: c :: B) = noTripleNL B := by
  show (!('\n' = '\n' && '\n' = '\n' && c = '\n') && noTripleNL ('\n' :: c :: B)) = _
  rw [noTripleNL_nl_cons_ne c B hc]
  simp [hc]

theorem noTripleNL_emit_cons (k : Nat) (c : Char) (B : List Char) (hc : ¬ c = '\n') :
    noTripleNL (collapseEmit k ++ c :: B) = noTripleNL B := by
  by_cases h : 3 ≤ k
  · rw [collapseEmit_big k h]
    exact noTripleNL_nl_nl_cons_ne c B hc
  · rw [collapseEmit_small k (by omega)]
    have : k = 0 ∨ k = 1 ∨ k = 2 := by omega
    rcases this with rfl | rfl | rfl
    · rw [show List.replicate 0 '\n' ++ c :: B = c :: B from rfl]
      exact noTripleNL_cons_ne c B hc
    · rw [show List.replicate 1 '\n' ++ c :: B = '\n' :: c :: B from rfl]
      exact noTripleNL_nl_cons_ne c B hc
    · rw [show List.replicate 2 '\n' ++ c :: B = '\n' :: '\n' :: c :: B from rfl]
      exact noTripleNL_nl_nl_cons_ne c B hc

theorem noTripleNL_collapseGo : ∀ (l : List Char) (k : Nat),
    noTripleNL (collapseGo k l) = true
  | [], k => by
    rw [collapseGo_nil]
    by_cases h : 3 ≤ k
    · rw [collapseEmit_big k h]
      rfl
    · rw [collapseEmit_small k (by omega)]
      have : k = 0 ∨ k = 1 ∨ k = 2 := by omega
      rcases this with rfl | rfl | rfl <;> rfl
  | c :: rest, k => by
    rw [collapseGo_cons]
    by_cases hc : c = '\n'
    · rw [if_pos hc]
      exact noTripleNL_collapseGo rest (k + 1)
    · rw [if_neg hc, noTripleNL_emit_cons k c _ hc]
      exact noTripleNL_collapseGo rest 0

theorem collapseNewlines_idem (l : List Char) :
    collapseNewlines (collapseNewlines l) = collapseNewlines l :=
  collapseNewlines_of_noTriple _ (noTripleNL_collapseGo l 0)

/-! ### The normalizer on marker-free input, and its idempotence there -/

theorem no_speaker_collapse_strip (s : List Char) (h : hasSpeakerMatch s = false) :
    hasSpeakerMatch (collapseNewlines (stripWS s)) = false := by
  by_contra h'
  rw [Bool.not_eq_false] at h'
  have h2 := hasSpeakerMatch_collapseGo (stripWS s) 0 h'
  rw [stripWS_no_speaker s h] at h2
  exact absurd h2 (by simp)

theorem no_marker_collapse_strip (s : List Char) (h : hasMarker suxWord s = false) :
    hasMarker suxWord (collapseNewlines (stripWS s)) = false := by
  by_contra h'
  rw [Bool.not_eq_false] at h'
  have h2 := hasMarker_collapseGo suxWord (by decide) (stripWS s) 0 h'
  rw [stripWS_no_marker suxWord s h] at h2
  exact absurd h2 (by simp)

theorem appFormat_eq_collapse_strip (s : List Char)
    (h1 : hasSpeakerMatch s = false) (h2 : hasMarker suxWord s = false) :
    appFormat s = collapseNewlines (stripWS s) := by
  unfold appFormat
  rw [subSpeaker_of_no_match suxWord _ (no_speaker_collapse_strip s h1),
    insertBreaks_of_no_marker suxWord _ (no_marker_collapse_strip s h2)]

theorem appFormat_fixed (s : List Char)
    (h1 : hasSpeakerMatch s = false) (h2 : hasMarker suxWord s = false) :
    appFormat (collapseNewlines (stripWS s)) = collapseNewlines (stripWS s) := by
  have hstrip : stripWS (collapseNewlines (stripWS s)) = collapseNewlines (stripWS s) :=
    stripWS_eq_self _ (collapse_headOK _ (stripWS_headOK s))
      (collapse_lastOK _ (stripWS_lastOK s))
  unfold appFormat
  rw [hstrip, collapseNewlines_idem,
    subSpeaker_of_no_match suxWord _ (no_speaker_collapse_strip s h1),
    insertBreaks_of_no_marker suxWord _ (no_marker_collapse_strip s h2)]

/-! ### Computing the canonicalization of the four marker forms -/

theorem tryMatch_not_bracket (c : Char) (l : List Char) (hc : ¬ c = '[') :
    tryMatch (c :: l) = matchBody (c :: l) := by
  unfold tryMatch
  split
  · rename_i heq
    exact absurd (congrArg List.head? heq) (by simpa using fun he => hc he)
  · rfl

theorem digit_not_space (c : Char) (h : isDigitC c = true) : isSpaceC c = false := by
  by_contra hs
  rw [Bool.not_eq_false] at hs
  unfold isSpaceC at hs
  have hs' : c = ' ' ∨ c = '\t' ∨ c = '\n' ∨ c = '\r' ∨ c = '\x0b' ∨ c = '\x0c' := by
    simpa [or_assoc] using hs
  rcases hs' with rfl | rfl | rfl | rfl | rfl | rfl <;> exact absurd h (by decide)

theorem digit_ne_of (c a : Char) (h : isDigitC c = true) (ha : isDigitC a = false) :
    ¬ c = a := by
  intro he
  rw [he] at h
  rw [h] at ha
  exact absurd ha (by simp)

theorem spans_digits (ds tail : List Char) (hne : ds ≠ [])
    (hds : ds.all isDigitC = true) (htail : ∀ a ∈ tail, isDigitC a = false)
    (hhead : tail ≠ []) :
    (ds ++ tail).dropWhile isSpaceC = ds ++ tail ∧
    (ds ++ tail).takeWhile isDigitC = ds ∧
    (ds ++ tail).dropWhile isDigitC = tail := by
  have hall : ∀ a ∈ ds, isDigitC a = true := by
    rw [List.all_eq_true] at hds
    intro a ha
    simpa using hds a ha
  refine ⟨?_, ?_, ?_⟩
  · match ds, hne with
    | d :: ds', _ =>
      rw [List.cons_append, List.dropWhile_cons,
        if_neg (by rw [digit_not_space d (hall d (by simp))]; simp)]
  · rw [List.takeWhile_append_of_pos hall]
    match tail, hhead with
    | x :: tail', _ =>
      rw [List.takeWhile_cons, if_neg (by rw [htail x (by simp)]; simp)]
      simp
  · rw [List.dropWhile_append_of_pos hall]
    match tail, hhead with
    | x :: tail', _ =>
      rw [List.dropWhile_cons, if_neg (by rw [htail x (by simp)]; simp)]

theorem matchBody_spec (l l1 ds t : List Char)
    (h1 : dropWordCI speakerWord l = some l1)
    (h2 : (l1.dropWhile isSpaceC).takeWhile isDigitC = ds)
    (h3 : ds ≠ [])
    (h4 : dropColon ((dropBracket ((l1.dropWhile isSpaceC).dropWhile isDigitC)).dropWhile
      isSpaceC) = some t) :
    matchBody l = some (ds, t) := by
  unfold matchBody
  rw [h1]
  simp only
  rw [h2, h4, if_neg (by simpa using h3)]

theorem subGo_succ_cons (w : List Char) (fuel : Nat) (c : Char) (rest : List Char) :
    subGo w (fuel + 1) (c :: rest) =
      match tryMatch (c :: rest) with
      | some (ds, t) => canonRep w ds ++ subGo w fuel t
      | none => c :: subGo w fuel rest := rfl

theorem subSpeaker_single (w : List Char) (c : Char) (rest ds : List Char)
    (htm : tryMatch (c :: rest) = some (ds, [])) :
    subSpeaker w (c :: rest) = canonRep w ds := by
  unfold subSpeaker
  rw [show (c :: rest).length = rest.length + 1 from rfl, subGo_succ_cons, htm]
  show canonRep w ds ++ subGo w rest.length [] = canonRep w ds
  rw [subGo_nil, List.append_nil]

theorem hasMarker_no_head (w : List Char) (a : Char) (hw : w.head? = some a) :
    ∀ l : List Char, (∀ c ∈ l, ¬ c = a) → hasMarker w l = false
  | [], _ => rfl
  | c :: rest, h => by
    rw [hasMarker_cons, Bool.or_eq_false_iff]
    constructor
    · by_contra hm
      rw [Bool.not_eq_false] at hm
      have := markerAt_head w (c :: rest) a hw hm
      exact h c (by simp) (by simpa using this)
    · exact hasMarker_no_head w a hw rest (fun c hc => h c (by simp [hc]))

theorem no_S_in_digit_tail (mid : List Char) (hmid : ∀ c ∈ mid, ¬ c = 'S')
    (ds : List Char) (hds : ds.all isDigitC = true) (tail : List Char)
    (htail : ∀ c ∈ tail, ¬ c = 'S') :
    ∀ c ∈ mid ++ (ds ++ tail), ¬ c = 'S' := by
  intro c hc
  rw [List.mem_append, List.mem_append] at hc
  rcases hc with hc | hc | hc
  · exact hmid c hc
  · rw [List.all_eq_true] at hds
    have h := hds c hc
    exact digit_ne_of c 'S' (by simpa using h) (by decide)
  · exact htail c hc

theorem insertBreaks_canonRep (ds : List Char) (hds : ds.all isDigitC = true) :
    insertBreaks spkWord (canonRep spkWord ds) = canonRep spkWord ds := by
  have hmem : ∀ c ∈ 'p' :: 'e' :: 'a' :: 'k' :: 'e' :: 'r' :: ' ' :: (ds ++ [':']),
      ¬ c = 'S' :=
    no_S_in_digit_tail ['p', 'e', 'a', 'k', 'e', 'r', ' '] (by decide) ds hds [':']
      (by decide)
  have hm : hasMarker spkWord
      ('p' :: 'e' :: 'a' :: 'k' :: 'e' :: 'r' :: ' ' :: (ds ++ [':'])) = false :=
    hasMarker_no_head spkWord 'S' rfl _ hmem
  rw [show canonRep spkWord ds =
    'S' :: ('p' :: 'e' :: 'a' :: 'k' :: 'e' :: 'r' :: ' ' :: (ds ++ [':'])) from rfl]
  show 'S' :: ibAux spkWord ('p' :: 'e' :: 'a' :: 'k' :: 'e' :: 'r' :: ' ' :: (ds ++ [':'])) = _
  rw [ibAux_of_no_marker spkWord _ hm]

theorem tryMatch_form_canonical (ds : List Char) (hne : ds ≠ [])
    (hds : ds.all isDigitC = true) :
    tryMatch ('S' :: 'p' :: 'e' :: 'a' :: 'k' :: 'e' :: 'r' :: ' ' :: (ds ++ [':'])) =
      some (ds, []) := by
  rw [tryMatch_not_bracket _ _ (by decide)]
  obtain ⟨hsp, htk, hdr⟩ := spans_digits ds [':'] hne hds (by decide) (by simp)
  refine matchBody_spec _ (' ' :: (ds ++ [':'])) ds [] rfl ?_ hne ?_
  · rw [List.dropWhile_cons, if_pos (by decide), hsp, htk]
  · rw [List.dropWhile_cons, if_pos (by decide), hsp, hdr,
      dropBracket_cons_ne ':' [] (by decide), List.dropWhile_cons, if_neg (by decide)]
    rfl

theorem tryMatch_form_upper (ds : List Char) (hne : ds ≠ [])
    (hds : ds.all isDigitC = true) :
    tryMatch ('S' :: 'P' :: 'E' :: 'A' :: 'K' :: 'E' :: 'R' :: ' ' :: (ds ++ [':'])) =
      some (ds, []) := by
  rw [tryMatch_not_bracket _ _ (by decide)]
  obtain ⟨hsp, htk, hdr⟩ := spans_digits ds [':'] hne hds (by decide) (by simp)
  refine matchBody_spec _ (' ' :: (ds ++ [':'])) ds [] rfl ?_ ?_ ?_
  · rw [List.dropWhile_cons, if_pos (by decide), hsp, htk]
  · exact hne
  · rw [List.dropWhile_cons, if_pos (by decide), hsp, hdr,
      dropBracket_cons_ne ':' [] (by decide), List.dropWhile_cons, if_neg (by decide)]
    rfl

theorem tryMatch_form_nospace (ds : List Char) (hne : ds ≠ [])
    (hds : ds.all isDigitC = true) :
    tryMatch ('s' :: 'p' :: 'e' :: 'a' :: 'k' :: 'e' :: 'r' :: (ds ++ [':'])) =
      some (ds, []) := by
  rw [tryMatch_not_bracket _ _ (by decide)]
  obtain ⟨hsp, htk, hdr⟩ := spans_digits ds [':'] hne hds (by decide) (by simp)
  refine matchBody_spec _ (ds ++ [':']) ds [] rfl ?_ hne ?_
  · rw [hsp, htk]
  · rw [hsp, hdr, dropBracket_cons_ne ':' [] (by decide),
      List.dropWhile_cons, if_neg (by decide)]
    rfl

theorem tryMatch_form_bracket (ds : List Char) (hne : ds ≠ [])
    (hds : ds.all isDigitC = true) :
    tryMatch ('[' :: 'S' :: 'p' :: 'e' :: 'a' :: 'k' :: 'e' :: 'r' :: ' ' ::
        (ds ++ [']', ':'])) = some (ds, []) := by
  show matchBody ('S' :: 'p' :: 'e' :: 'a' :: 'k' :: 'e' :: 'r' :: ' ' ::
    (ds ++ [']', ':'])) = some (ds, [])
  obtain ⟨hsp, htk, hdr⟩ := spans_digits ds [']', ':'] hne hds
    (by intro a ha; simp only [List.mem_cons, List.mem_singleton] at ha
        rcases ha with rfl | rfl | ha
        · decide
        · decide
        · exact absurd ha (by simp)) (by simp)
  refine matchBody_spec _ (' ' :: (ds ++ [']', ':'])) ds [] rfl ?_ hne ?_
  · rw [List.dropWhile_cons, if_pos (by decide), hsp, htk]
  · rw [List.dropWhile_cons, if_pos (by decide), hsp, hdr]
    rw [show dropBracket [']', ':'] = [':'] from rfl,
      List.dropWhile_cons, if_neg (by decide)]
    rfl

theorem mainFormat_form_canonical (ds : List Char) (hne : ds ≠ [])
    (hds : ds.all isDigitC = true) :
    mainFormat ('S' :: 'p' :: 'e' :: 'a' :: 'k' :: 'e' :: 'r' :: ' ' :: (ds ++ [':'])) =
      canonRep spkWord ds := by
  unfold mainFormat
  rw [subSpeaker_single spkWord _ _ ds (tryMatch_form_canonical ds hne hds),
    insertBreaks_canonRep ds hds]

theorem mainFormat_form_upper (ds : List Char) (hne : ds ≠ [])
    (hds : ds.all isDigitC = true) :
    mainFormat ('S' :: 'P' :: 'E' :: 'A' :: 'K' :: 'E' :: 'R' :: ' ' :: (ds ++ [':'])) =
      canonRep spkWord ds := by
  unfold mainFormat
  rw [subSpeaker_single spkWord _ _ ds (tryMatch_form_upper ds hne hds),
    insertBreaks_canonRep ds hds]

theorem mainFormat_form_nospace (ds : List Char) (hne : ds ≠ [])
    (hds : ds.all isDigitC = true) :
    mainFormat ('s' :: 'p' :: 'e' :: 'a' :: 'k' :: 'e' :: 'r' :: (ds ++ [':'])) =
      canonRep spkWord ds := by
  unfold mainFormat
  rw [subSpeaker_single spkWord _ _ ds (tryMatch_form_nospace ds hne hds),
    insertBreaks_canonRep ds hds]

theorem mainFormat_form_bracket (ds : List Char) (hne : ds ≠ [])
    (hds : ds.all isDigitC = true) :
    mainFormat ('[' :: 'S' :: 'p' :: 'e' :: 'a' :: 'k' :: 'e' :: 'r' :: ' ' ::
        (ds ++ [']', ':'])) = canonRep spkWord ds := by
  unfold mainFormat
  rw [subSpeaker_single spkWord _ _ ds (tryMatch_form_bracket ds hne hds),
    insertBreaks_canonRep ds hds]

/-! ### One replacement step of the scan, in arbitrary context -/

theorem subGo_fuel (w : List Char) :
    ∀ (n fuel₁ fuel₂ : Nat) (l : List Char), l.length ≤ n → l.length ≤ fuel₁ →
      l.length ≤ fuel₂ → subGo w fuel₁ l = subGo w fuel₂ l
  | _, fuel₁, fuel₂, [], _, _, _ => by rw [subGo_nil w fuel₁, subGo_nil w fuel₂]
  | 0, _, _, c :: rest, hn, _, _ => by simp at hn
  | n + 1, fuel₁, fuel₂, c :: rest, hn, h₁, h₂ => by
    rw [List.length_cons] at hn h₁ h₂
    obtain ⟨f₁, rfl⟩ : ∃ f, fuel₁ = f + 1 := ⟨fuel₁ - 1, by omega⟩
    obtain ⟨f₂, rfl⟩ : ∃ f, fuel₂ = f + 1 := ⟨fuel₂ - 1, by omega⟩
    rw [subGo_succ_cons, subGo_succ_cons]
    cases htm : tryMatch (c :: rest) with
    | some p =>
      obtain ⟨ds, t⟩ := p
      have hlt := tryMatch_shorter (c :: rest) ds t htm
      rw [List.length_cons] at hlt
      show canonRep w ds ++ subGo w f₁ t = canonRep w ds ++ subGo w f₂ t
      exact congrArg _ (subGo_fuel w n f₁ f₂ t (by omega) (by omega) (by omega))
    | none =>
      show c :: subGo w f₁ rest = c :: subGo w f₂ rest
      exact congrArg _ (subGo_fuel w n f₁ f₂ rest (by omega) (by omega) (by omega))

theorem subGo_eq_subSpeaker (w : List Char) (fuel : Nat) (l : List Char)
    (h : l.length ≤ fuel) : subGo w fuel l = subSpeaker w l :=
  subGo_fuel w l.length fuel l.length l le_rfl h le_rfl

theorem subSpeaker_replaces_marker (w : List Char) :
    ∀ (pre m post ds : List Char),
      (∀ i, i < pre.length → tryMatch ((pre ++ (m ++ post)).drop i) = none) →
      tryMatch (m ++ post) = some (ds, post) →
      subSpeaker w (pre ++ (m ++ post)) = pre ++ (canonRep w ds ++ subSpeaker w post)
  | [], m, post, ds, _, h2 => by
    simp only [List.nil_append]
    have hmne : m ≠ [] := by
      intro he
      rw [he, List.nil_append] at h2
      have := tryMatch_shorter post ds post h2
      omega
    match m, hmne with
    | c :: m', _ =>
      rw [List.cons_append] at h2 ⊢
      unfold subSpeaker
      rw [show (c :: (m' ++ post)).length = (m' ++ post).length + 1 from rfl,
        subGo_succ_cons, h2]
      show canonRep w ds ++ subGo w (m' ++ post).length post = _
      rw [subGo_eq_subSpeaker w _ post (by rw [List.length_append]; omega)]
      rfl
  | a :: pre', m, post, ds, h1, h2 => by
    have h0 : tryMatch (a :: (pre' ++ (m ++ post))) = none := by
      have h := h1 0 (by simp)
      simpa using h
    rw [List.cons_append]
    unfold subSpeaker
    rw [show (a :: (pre' ++ (m ++ post))).length = (pre' ++ (m ++ post)).length + 1
      from rfl, subGo_succ_cons, h0]
    show a :: subGo w (pre' ++ (m ++ post)).length (pre' ++ (m ++ post)) = _
    have hrec := subSpeaker_replaces_marker w pre' m post ds (fun i hi => by
      have h := h1 (i + 1) (by rw [List.length_cons]; omega)
      simpa using h) h2
    unfold subSpeaker at hrec
    rw [hrec]
    simp

/-! ## The claims -/

/-- Claim C1: the normalizer is claimed idempotent for every string.  It is
not: inserting the paragraph break unconditionally before a canonical marker
makes a second application insert again after the first pass left three
newlines.  Counterexample input: `"a\nSuxbatdosh 1: x"`. -/
theorem C1_counterexample :
    format_speaker_labels (format_speaker_labels "a\nSuxbatdosh 1: x") ≠
      format_speaker_labels "a\nSuxbatdosh 1: x" := by decide

/-- Claim C1 (amended): the normalizer is idempotent on every string that
contains no occurrence of the speaker pattern and no occurrence of the
canonical marker `Suxbatdosh <digits>:`; on such strings both substitution
passes are no-ops, so the normalizer reduces to trimming plus blank-run
collapsing, which is idempotent. -/
theorem C1_idempotent_on_marker_free (s : String)
    (h1 : hasSpeakerMatch s.data = false) (h2 : hasMarker suxWord s.data = false) :
    format_speaker_labels (format_speaker_labels s) = format_speaker_labels s := by
  have key : appFormat (appFormat s.data) = appFormat s.data := by
    rw [appFormat_eq_collapse_strip s.data h1 h2]
    exact appFormat_fixed s.data h1 h2
  exact congrArg String.mk key

/-- Claim C1 witness: the amended idempotence at the concrete marker-free
input `"hello\n\nworld"`. -/
theorem C1_witness :
    hasSpeakerMatch "hello\n\nworld".data = false ∧
    hasMarker suxWord "hello\n\nworld".data = false ∧
    format_speaker_labels (format_speaker_labels "hello\n\nworld") =
      format_speaker_labels "hello\n\nworld" :=
  ⟨by decide, by decide,
    C1_idempotent_on_marker_free "hello\n\nworld" (by decide) (by decide)⟩

/-- Claim C2: claimed, every canonical marker away from position 0 of the
output is preceded by exactly two newline characters, and the break is
inserted only when not already present.  False: the insertion is
unconditional, so input `"a\n\nSuxbatdosh 1: x"` (break already present)
yields four newline characters before the marker. -/
theorem C2_counterexample : ¬ claimC2Holds "a\n\nSuxbatdosh 1: x".data := by
  unfold claimC2Holds
  decide

/-- Claim C2 (amended): in the output of the normalizer, every canonical
marker occurrence at a position other than 0 is immediately preceded by AT
LEAST two consecutive newline characters; the two-newline break is inserted
unconditionally, even when newline characters are already present, so more
than two can precede the marker. -/
theorem C2_at_least_two_newlines (s : String) (i : Nat)
    (h : markerAt suxWord ((format_speaker_labels s).data.drop i) = true)
    (hi : i ≠ 0) :
    ∃ k, i = k + 2 ∧ (format_speaker_labels s).data.drop k =
      '\n' :: '\n' :: (format_speaker_labels s).data.drop i :=
  insertBreaks_marker_preceded suxWord (by decide) (by decide) _ i h hi

/-- Claim C2 witness: in the output of `"a\nSuxbatdosh 1: x"` the marker
sits at position 4 and positions 2 and 3 hold newline characters. -/
theorem C2_witness :
    ∃ k, 4 = k + 2 ∧ (format_speaker_labels "a\nSuxbatdosh 1: x").data.drop k =
      '\n' :: '\n' :: (format_speaker_labels "a\nSuxbatdosh 1: x").data.drop 4 :=
  C2_at_least_two_newlines "a\nSuxbatdosh 1: x" 4 (by decide) (by decide)

/-- Claim C3: every substring of the input matching the marker pattern is
replaced by the canonical label followed by the captured digit sequence,
unchanged, and a colon.  Part one, in full generality: for any canonical
word, whenever the scan reaches an occurrence of the pattern — arbitrary
preceding context `pre` in which no match starts, a matched segment `m`
capturing digits `ds`, arbitrary remainder `post` — the substitution pass
rewrites `pre ++ m ++ post` to `pre` unchanged, then the canonical label
with `ds` and a colon, then the scan of `post` (matches never overlap, so
this characterizes every replaced substring).  Part two: the claim's four
concrete marker forms, for every nonempty digit sequence.  Part three: a
marker embedded in surrounding text is canonicalized in place by the full
normalizer. -/
theorem C3_marker_canonicalization :
    (∀ (w pre m post ds : List Char),
        (∀ i, i < pre.length → tryMatch ((pre ++ (m ++ post)).drop i) = none) →
        tryMatch (m ++ post) = some (ds, post) →
        subSpeaker w (pre ++ (m ++ post)) = pre ++ (canonRep w ds ++ subSpeaker w post)) ∧
    (∀ ds : List Char, ds ≠ [] → ds.all isDigitC = true →
      format_speaker_labels_main
          ⟨'S' :: 'p' :: 'e' :: 'a' :: 'k' :: 'e' :: 'r' :: ' ' :: (ds ++ [':'])⟩ =
        ⟨canonRep spkWord ds⟩ ∧
      format_speaker_labels_main
          ⟨'S' :: 'P' :: 'E' :: 'A' :: 'K' :: 'E' :: 'R' :: ' ' :: (ds ++ [':'])⟩ =
        ⟨canonRep spkWord ds⟩ ∧
      format_speaker_labels_main
          ⟨'[' :: 'S' :: 'p' :: 'e' :: 'a' :: 'k' :: 'e' :: 'r' :: ' ' :: (ds ++ [']', ':'])⟩ =
        ⟨canonRep spkWord ds⟩ ∧
      format_speaker_labels_main
          ⟨'s' :: 'p' :: 'e' :: 'a' :: 'k' :: 'e' :: 'r' :: (ds ++ [':'])⟩ =
        ⟨canonRep spkWord ds⟩) ∧
    format_speaker_labels_main "x speaker 5: y" = "x \n\nSpeaker 5: y" :=
  ⟨fun w pre m post ds h1 h2 => subSpeaker_replaces_marker w pre m post ds h1 h2,
    fun ds hne hds =>
      ⟨congrArg String.mk (mainFormat_form_canonical ds hne hds),
        congrArg String.mk (mainFormat_form_upper ds hne hds),
        congrArg String.mk (mainFormat_form_bracket ds hne hds),
        congrArg String.mk (mainFormat_form_nospace ds hne hds)⟩,
    by decide⟩

/-- Claim C3 witness: the general replacement statement at the concrete
in-context input `"x speaker 5: y"` (both hypotheses discharged by
computation), and the claim's four concrete forms with digit 3. -/
theorem C3_witness :
    subSpeaker spkWord ("x ".data ++ ("speaker 5:".data ++ " y".data)) =
      "x ".data ++ (canonRep spkWord ['5'] ++ subSpeaker spkWord " y".data) ∧
    format_speaker_labels_main "Speaker 3:" = "Speaker 3:" ∧
    format_speaker_labels_main "SPEAKER 3:" = "Speaker 3:" ∧
    format_speaker_labels_main "[Speaker 3]:" = "Speaker 3:" ∧
    format_speaker_labels_main "speaker3:" = "Speaker 3:" := by
  obtain ⟨h1, h2, h3, h4⟩ := C3_marker_canonicalization.2.1 ['3'] (by decide) (by decide)
  exact ⟨C3_marker_canonicalization.1 spkWord "x ".data "speaker 5:".data " y".data ['5']
    (by decide) (by decide), h1, h2, h3, h4⟩

/-- Claim C4: the first step of the `app.py` normalizer trims outer
whitespace and then replaces every run of three or more newline characters
by exactly two.  Part one: the collapsing pass rewrites any maximal run of
`k ≥ 3` newlines between non-newline context to exactly two newlines,
leaving both sides to be processed independently.  Part two: the concrete
scenario — four blank lines between two paragraphs (with stray outer
whitespace) collapse to exactly one blank line, everything else unchanged. -/
theorem C4_trim_then_collapse :
    (∀ (pre post : List Char) (k : Nat), 3 ≤ k → pre.getLast? ≠ some '\n' →
        post.head? ≠ some '\n' →
        collapseNewlines (pre ++ List.replicate k '\n' ++ post) =
          collapseNewlines pre ++ '\n' :: '\n' :: collapseNewlines post) ∧
    format_speaker_labels "  One.\n\n\n\n\nTwo.  " = "One.\n\nTwo." :=
  ⟨fun pre post k hk hpre hpost => collapseNewlines_run pre post k hk hpre hpost,
    by decide⟩

/-- Claim C4 witness: the run lemma at the concrete input `"a\n\n\nb"`. -/
theorem C4_witness :
    collapseNewlines (['a'] ++ List.replicate 3 '\n' ++ ['b']) =
      collapseNewlines ['a'] ++ '\n' :: '\n' :: collapseNewlines ['b'] :=
  C4_trim_then_collapse.1 ['a'] ['b'] 3 (by decide) (by decide) (by decide)

/-- Claim C5: on `"[Speaker 1]: hi\nSpeaker2:bye"` the output is claimed to
be `"Speaker 1: hi\n\nSpeaker 2:bye"`.  False: the paragraph break is
inserted unconditionally in addition to the newline already present, so
three newline characters separate the turns. -/
theorem C5_counterexample :
    format_speaker_labels_main "[Speaker 1]: hi\nSpeaker2:bye" ≠
      "Speaker 1: hi\n\nSpeaker 2:bye" := by decide

/-- Claim C5 (amended): both markers are canonicalized with their digits
preserved, but the second marker is preceded by three newline characters —
the original one plus the unconditionally inserted break. -/
theorem C5_scenario_actual :
    format_speaker_labels_main "[Speaker 1]: hi\nSpeaker2:bye" =
      "Speaker 1: hi\n\n\nSpeaker 2:bye" := by decide

/-- Claim C6: claimed, on marker-free input the normalizer changes only the
run length of blank lines.  False: it also trims outer whitespace — the
input `" a"` has no speaker marker and no run of three newlines, yet the
output differs from it. -/
theorem C6_counterexample :
    hasSpeakerMatch " a".data = false ∧ noTripleNL " a".data = true ∧
      format_speaker_labels " a" ≠ " a" :=
  ⟨by decide, by decide, by decide⟩

/-- Claim C6 (amended): for every string with no speaker-pattern occurrence
and no canonical-marker occurrence, the normalizer performs exactly the
trim of outer whitespace followed by the collapsing of newline runs of
three or more to exactly two — and nothing else. -/
theorem C6_only_trim_and_collapse (s : String)
    (h1 : hasSpeakerMatch s.data = false) (h2 : hasMarker suxWord s.data = false) :
    format_speaker_labels s = ⟨collapseNewlines (stripWS s.data)⟩ :=
  congrArg String.mk (appFormat_eq_collapse_strip s.data h1 h2)

/-- Claim C6 witness: the amended claim at `"  a\n\n\n\nb "`, whose
normalized form is `"a\n\nb"`. -/
theorem C6_witness :
    hasSpeakerMatch "  a\n\n\n\nb ".data = false ∧
    format_speaker_labels "  a\n\n\n\nb " = "a\n\nb" :=
  ⟨by decide,
    (C6_only_trim_and_collapse "  a\n\n\n\nb " (by decide) (by decide)).trans
      (by decide)⟩

/-- Claim C7: normalize applied to the empty string returns the empty
string, in both sources, and the fallible model of the `app.py` `try` block
returns it without an error. -/
theorem C7_empty_string :
    format_speaker_labels "" = "" ∧ format_speaker_labels_main "" = "" ∧
    formatLabelsTry (okStep (fun l => collapseNewlines (stripWS l)))
      (okStep (subSpeaker suxWord)) (okStep (insertBreaks suxWord)) [] = .ok [] :=
  ⟨rfl, rfl, rfl⟩

/-- Claim C8: claimed, a failure of the pattern-matching step surfaces as a
`FormattingError` carrying the original exception.  False: no
`FormattingError` class exists in the source; `format_speaker_labels`
catches, logs, and re-raises the original exception itself, which is a
different value from any `FormattingError` wrapper. -/
theorem C8_counterexample :
    formatLabelsTry (fun _ => .error (.pyExc "regex engine failure"))
      (okStep (subSpeaker suxWord)) (okStep (insertBreaks suxWord)) "abc".data =
      .error (.pyExc "regex engine failure") ∧
    Except.error (α := List Char) (AppError.pyExc "regex engine failure") ≠
      .error (.formattingError (.pyExc "regex engine failure")) :=
  ⟨rfl, by simp⟩

/-- Claim C8 (amended): if the pattern-matching step fails, the operation
fails with the ORIGINAL exception re-raised unchanged (there is no
`FormattingError` wrapper in the code) and no partial output is returned;
with the actual total substitution passes no exception is raised and the
pure result is produced for every input. -/
theorem C8_formatting_failure_propagates :
    (∀ (step1 step2 step3 : List Char → Except AppError (List Char)) (t : List Char)
        (e : AppError), step1 t = .error e →
          formatLabelsTry step1 step2 step3 t = .error e) ∧
    (∀ t : List Char,
        formatLabelsTry (okStep (fun l => collapseNewlines (stripWS l)))
          (okStep (subSpeaker suxWord)) (okStep (insertBreaks suxWord)) t =
          .ok (appFormat t)) := by
  constructor
  · intro s1 s2 s3 t e h
    unfold formatLabelsTry
    rw [h]
    rfl
  · intro t
    rfl

/-- Claim C8 witness: a concrete failing first step propagates its
exception unchanged. -/
theorem C8_witness :
    formatLabelsTry (fun _ => .error (.pyExc "boom")) (okStep (fun l => l))
      (okStep (fun l => l)) [] = .error (.pyExc "boom") :=
  C8_formatting_failure_propagates.1 _ _ _ [] _ rfl

/-- Claim C9: claimed, a transcription failure surfaces as a
`TranscriptionError` and no downstream stage executes.  Partly false: no
`TranscriptionError` class exists; the pipeline surfaces the original
exception itself, a different value from any `TranscriptionError`
wrapper. -/
theorem C9_counterexample :
    runPipeline (fun _ : Unit => .error (.pyExc "network down"))
      (fun t => .ok t) (fun t => .ok t) (fun t => .ok t) () =
      .error (.pyExc "network down") ∧
    Except.error (α := PipelineOutput) (AppError.pyExc "network down") ≠
      .error (.transcriptionError (.pyExc "network down")) :=
  ⟨rfl, by simp⟩

/-- Claim C9 (amended): when the remote transcription call fails with `e`,
the transcription stage logs and re-raises exactly `e` (no retry, no
wrapper), and the pipeline's result is `error e` whatever the downstream
stage functions are — none of speaker identification, label normalization,
language conversion or summarization contributes to the result. -/
theorem C9_transcription_failure_propagates :
    ∀ {α : Type} (transcribe : α → Except AppError (List Char))
      (identify convertToUzbek summarize : List Char → Except AppError (List Char))
      (audio : α) (e : AppError), transcribe audio = .error e →
        transcribe_audio transcribe audio = .error e ∧
        runPipeline transcribe identify convertToUzbek summarize audio = .error e := by
  intro α tr idf cv su a e h
  have h' : transcribe_audio tr a = .error e := by
    unfold transcribe_audio
    rw [h]
    rfl
  refine ⟨h', ?_⟩
  unfold runPipeline
  rw [h']
  rfl

/-- Claim C9 witness: a concrete failing transcription call; the pipeline
returns exactly that exception. -/
theorem C9_witness :
    runPipeline (fun _ : Unit => .error (.pyExc "transcription failed"))
      (okStep (fun t => t)) (okStep (fun t => t)) (okStep (fun t => t)) () =
      .error (.pyExc "transcription failed") :=
  (C9_transcription_failure_propagates
    (fun _ : Unit => .error (.pyExc "transcription failed"))
    (okStep (fun t => t)) (okStep (fun t => t)) (okStep (fun t => t)) ()
    (.pyExc "transcription failed") rfl).2

/-- Claim C10: for every input, the output of the `app.py` normalizer has
no leading and no trailing whitespace: the input is stripped first and no
later pass adds whitespace at either end. -/
theorem C10_stripped_output (s : String) :
    stripWS (format_speaker_labels s).data = (format_speaker_labels s).data :=
  stripWS_eq_self _ (appFormat_headOK s.data) (appFormat_lastOK s.data)
